import Mathlib

/-!
# Verification of the csv-go binding engine

A shallow embedding of the csv-go repository: the reflection-based CSV
reader (`reader.go`: `ReadCSV`, `getField`, `setField`) and the generic
writer (`writer[T]`: `WriteCSV`, `writeHeader`, `writeElem`, `getString`),
together with theorems settling the specification's claims about them.

Modelling conventions:
* Go strings are embedded as `List Char` (`GoStr`); Go's `strings.Split`,
  `TrimSuffix`, `TrimPrefix`, `TrimSpace`, `EqualFold` and the relevant
  parts of `strconv` are re-implemented on that representation.
* Go `reflect` values of record fields are embedded as `Value`
  (a scalar or a pointer that may be nil); a record is the list of its
  field values in declaration order, and a record type carries its field
  descriptors plus the optional duck-typed capabilities
  (`Parser`, `Unmarshaler(WithoutHeader)`, `HeaderMarshaler`,
  `BodyMarshaler`, `Stringer`) as `Option`-valued functions.
* Reflection panics (indexing a row past its end, `Set` with a
  mismatched type, `Interface`/`Set` on the invalid `reflect.Value`
  obtained from a nil pointer) are explicit outcome constructors, kept
  distinct from ordinary returned errors.
* IEEE-754 payloads are not interpreted: a float value is carried as the
  literal `fmt` would print for it, and decoding text into a float or
  complex destination is an explicitly unmodelled outcome; no theorem
  below depends on those paths.  Complex values carry no payload because
  the write path rejects the kind before inspecting the value.
* The buffered sink is modelled as the string the writer has produced;
  `WriteCSV` flushes only on success, so an erroring call yields no
  observable output.
-/

namespace CsvGo

/-- Go strings, embedded as lists of characters. -/
abbrev GoStr := List Char

/-- Convenience conversion from Lean string literals. -/
def gs (s : String) : GoStr := s.data

/-- Character-membership test, `strings.ContainsRune`. -/
def containsChar (c : Char) (s : GoStr) : Bool := s.contains c

/-- Embedding of `strings.TrimSuffix`. -/
def goTrimSuffix (suf s : GoStr) : GoStr :=
  if suf.length ≤ s.length ∧ s.drop (s.length - suf.length) = suf then
    s.take (s.length - suf.length)
  else s

/-- Embedding of `strings.TrimPrefix`. -/
def goTrimPre (pre s : GoStr) : GoStr :=
  if s.take pre.length = pre then s.drop pre.length else s

/-- White-space predicate used by `strings.TrimSpace` (ASCII fragment of
Go's `unicode.IsSpace`; none of the values handled below contain the
non-ASCII space code points). -/
def isGoSpace (c : Char) : Bool :=
  c = ' ' ∨ c = '\t' ∨ c = '\n' ∨ c = '\r' ∨ c = '\x0b' ∨ c = '\x0c'

/-- Embedding of `strings.TrimSpace`. -/
def goTrimSpace (s : GoStr) : GoStr :=
  ((s.dropWhile isGoSpace).reverse.dropWhile isGoSpace).reverse

/-- Embedding of `strings.Split` with a one-character separator
(the engine always splits on `string(r.Comma)`). -/
def splitOnChar (sep : Char) : GoStr → List GoStr
  | [] => [[]]
  | c :: cs =>
    if c = sep then [] :: splitOnChar sep cs
    else
      match splitOnChar sep cs with
      | [] => [[c]]
      | h :: t => (c :: h) :: t

/-- Interleaving of parts with a separator character; `strings.Split`'s
left inverse on delimiter-free parts. -/
def joinChar (sep : Char) : List GoStr → GoStr
  | [] => []
  | [p] => p
  | p :: ps => p ++ sep :: joinChar sep ps

/-- Embedding of `strings.EqualFold`, restricted to simple case folding
(adequate for the ASCII field names the engine manipulates). -/
def goEqualFold (a b : GoStr) : Bool :=
  a.map Char.toLower = b.map Char.toLower

/-- Decimal digit character for a value below ten. -/
def digitChar (d : Nat) : Char := Char.ofNat (48 + d)

/-- Test for a decimal digit character. -/
def isDigitChar (c : Char) : Bool := 48 ≤ c.toNat ∧ c.toNat ≤ 57

/-- Numeric value of a digit character. -/
def digitVal (c : Char) : Nat := c.toNat - 48

/-- Decimal digit string of a natural number, most significant first
(the output format of `fmt.Sprint` on integers). -/
def natDigits (n : Nat) : List Char :=
  if _h : n < 10 then [digitChar n]
  else natDigits (n / 10) ++ [digitChar (n % 10)]
  termination_by n
  decreasing_by exact Nat.div_lt_self (by omega) (by omega)

/-- Rendering of a Go `int64`, as printed by `fmt.Sprint(v.Int())`. -/
def renderInt (i : Int) : GoStr :=
  if i < 0 then '-' :: natDigits i.natAbs else natDigits i.toNat

/-- Rendering of a Go `uint64`, as printed by `fmt.Sprint(v.Uint())`. -/
def renderUint (n : Nat) : GoStr := natDigits n

/-- Accumulating decimal value of a digit string. -/
def digitsVal (s : GoStr) (acc : Nat) : Nat :=
  s.foldl (fun a c => a * 10 + digitVal c) acc

/-- Digit-sequence parser underlying `strconv.ParseUint`: every character
must be a decimal digit and at least one must be present. -/
def parseDigits (s : GoStr) : Option Nat :=
  if s = [] then none
  else if s.all isDigitChar then some (digitsVal s 0) else none

/-- Embedding of `strconv.ParseUint(s, 10, 64)` (value only; the
incremental overflow check is equivalent to a final range check). -/
def goParseUint (s : GoStr) : Option Nat :=
  match parseDigits s with
  | none => none
  | some n => if n < 2 ^ 64 then some n else none

/-- Digit-and-range core of `strconv.ParseInt`: parse the digits, check
the magnitude bound, apply the sign. -/
def goParseIntCore (digits : GoStr) (maxAbs : Nat) (neg : Bool) : Option Int :=
  match parseDigits digits with
  | none => none
  | some n =>
    if n ≤ maxAbs then some (if neg then -(n : Int) else (n : Int)) else none

/-- Embedding of `strconv.ParseInt(s, 10, 64)`: optional sign, then the
`ParseUint` digit core, with the asymmetric int64 range check. -/
def goParseInt (s : GoStr) : Option Int :=
  match s with
  | [] => none
  | c :: rest =>
    if c = '+' then goParseIntCore rest (2 ^ 63 - 1) false
    else if c = '-' then goParseIntCore rest (2 ^ 63) true
    else goParseIntCore s (2 ^ 63 - 1) false

/-- Embedding of `strconv.ParseBool`: the exact accepted token set. -/
def goParseBool (s : GoStr) : Option Bool :=
  if s = gs "1" ∨ s = gs "t" ∨ s = gs "T" ∨ s = gs "TRUE" ∨
      s = gs "true" ∨ s = gs "True" then some true
  else if s = gs "0" ∨ s = gs "f" ∨ s = gs "F" ∨ s = gs "FALSE" ∨
      s = gs "false" ∨ s = gs "False" then some false
  else none

/-! ## Data model: scalar kinds, values, fields, record types -/

/-- Go `reflect.Kind`s the engine distinguishes.  The signed, unsigned
and float width families are collapsed to their 64-bit representatives
(the engine itself widens through `int64`/`uint64`/`float64`), and every
kind with no dedicated `switch` case in the source is `kStruct`. -/
inductive Kind
  | kString | kInt | kUint | kBool | kFloat | kComplex | kStruct
  deriving DecidableEq

/-- A scalar Go value.  Float values carry the literal `fmt.Sprint`
would print for them; complex values carry no payload because every
modelled operation either rejects the kind or is unmodelled; `structv`
carries an uninterpreted payload so distinct struct values can be told
apart. -/
inductive Scalar
  | str (s : GoStr)
  | sint (i : Int)
  | uint (n : Nat)
  | bool (b : Bool)
  | flt (lit : GoStr)
  | cplx
  | structv (payload : GoStr)
  deriving DecidableEq

/-- The `reflect.Kind` of a scalar value. -/
def Scalar.kind : Scalar → Kind
  | .str _ => .kString
  | .sint _ => .kInt
  | .uint _ => .kUint
  | .bool _ => .kBool
  | .flt _ => .kFloat
  | .cplx => .kComplex
  | .structv _ => .kStruct

/-- A record-field value: a scalar, or a pointer that may be nil. -/
inductive Value
  | scalar (s : Scalar)
  | ptr (p : Option Scalar)
  deriving DecidableEq

/-- A record value: its field values in declaration order. -/
abbrev Rec := List Value

/-- A struct-field descriptor as `reflect.VisibleFields` exposes it,
plus the field-level duck-typed capabilities: `parseFn` models the
field type implementing `csv.Parser`, `stringerFn` models it
implementing `String() string`. -/
structure Field where
  name : GoStr
  tag : Option GoStr
  exported : Bool
  anonymous : Bool
  kind : Kind
  isPtr : Bool
  parseFn : Option (GoStr → Option Scalar)
  stringerFn : Option (Value → GoStr)

/-- A convenient plain field: exported, untagged, non-anonymous,
non-pointer, with no custom capabilities. -/
def mkField (name : GoStr) (kind : Kind) : Field :=
  ⟨name, none, true, false, kind, false, none, none⟩

/-- Embedding of `reflect.StructTag.Get("csv")`: the empty string when
the tag is absent. -/
def tagGet (f : Field) : GoStr := f.tag.getD []

/-- A record type: its field descriptors plus the record-level
duck-typed capabilities (`UnmarshalerWithoutHeader`, `Unmarshaler`,
`HeaderMarshaler`, `BodyMarshaler`).  The unmarshal capabilities
receive the record under construction and return the updated record
or a custom error (`none`). -/
structure RecType where
  fields : List Field
  unmNoHeader : Option (Rec → List GoStr → Option Rec)
  unmWithHeader : Option (Rec → List GoStr → List GoStr → Option Rec)
  headerM : Option (Rec → List GoStr)
  bodyM : Option (Rec → List GoStr)

/-- A record type with no record-level capabilities. -/
def mkRecType (fields : List Field) : RecType :=
  ⟨fields, none, none, none, none⟩

/-- The zero scalar of a kind (`reflect.New` zeroes the element). -/
def zeroScalar : Kind → Scalar
  | .kString => .str []
  | .kInt => .sint 0
  | .kUint => .uint 0
  | .kBool => .bool false
  | .kFloat => .flt (gs "0")
  | .kComplex => .cplx
  | .kStruct => .structv []

/-- The zero value of a field (pointers start nil). -/
def zeroValue (f : Field) : Value :=
  if f.isPtr then .ptr none else .scalar (zeroScalar f.kind)

/-- The freshly allocated record `reflect.New(elemType)` produces. -/
def zeroRec (T : RecType) : Rec := T.fields.map zeroValue

/-- Reader/writer configuration surface (`WithHeader`, `Comma`,
`UseCRLF`), with the documented defaults. -/
structure Config where
  withHeader : Bool
  comma : Char
  useCRLF : Bool

/-- The default configuration produced by `NewReader`/`NewWriter`. -/
def defaultConfig : Config := ⟨true, ',', false⟩

/-- A header-disabled configuration, otherwise default. -/
def noHeaderConfig : Config := ⟨false, ',', false⟩

/-! ## Writer embedding (`writer[T]` of the generic writer file) -/

/-- Writer error values. `goPanic` stands for a reflection panic
(e.g. `Interface()` on the invalid value a nil pointer dereferences
to), which aborts the call like an error but is kept distinct. -/
inductive WErr
  | noCommasInHeader | noCommasInBody | emptySlice | unsupportedType | goPanic
  deriving DecidableEq

/-- Outcome of a write call: the flushed output, or an abort. -/
inductive WOut
  | ok (out : GoStr)
  | err (e : WErr)
  deriving DecidableEq

/-- Scalar arm of `getString`'s kind switch: string, ints, uints,
floats and bool have dedicated cases; every other kind falls to the
`unsupported type` error. -/
def getStringScalar : Scalar → WOut
  | .str t => .ok t
  | .sint i => .ok (renderInt i)
  | .uint n => .ok (renderUint n)
  | .flt lit => .ok lit
  | .bool b => .ok (if b then gs "true" else gs "false")
  | .cplx => .err .unsupportedType
  | .structv _ => .err .unsupportedType

/-- Embedding of `getString`: the per-value `Stringer` check, then the
kind switch, with `reflect.Pointer` recursing into `v.Elem()`.  The
model's values have a single ownership-optional level, so the source's
recursion unfolds to one dereference step here.  A nil pointer recurses
into the invalid `reflect.Value`, where `Interface()` panics.  The
source re-checks `Stringer` on the pointee's own method set; the model
reuses the field-level capability for both levels (all claims below
instantiate it to `none`). -/
def getString (stringerFn : Option (Value → GoStr)) : Value → WOut
  | v@(.scalar s) =>
    match stringerFn with
    | some f => .ok (f v)
    | none => getStringScalar s
  | v@(.ptr p) =>
    match stringerFn with
    | some f => .ok (f v)
    | none =>
      match p with
      | some s =>
        match stringerFn with
        | some f => .ok (f (.scalar s))
        | none => getStringScalar s
      | none => .err .goPanic

/-- Loop of the `BodyMarshaler` branch of `writeElem`: separator before
every value after the first, then the delimiter check on the value,
then the value itself. -/
def writeValsGo (cfg : Config) : List GoStr → Nat → GoStr → WOut
  | [], _, acc => .ok acc
  | v :: rest, i, acc =>
    let acc' := if i > 0 then acc ++ [cfg.comma] else acc
    if containsChar cfg.comma v then .err .noCommasInBody
    else writeValsGo cfg rest (i + 1) (acc' ++ v)

/-- Loop of the reflection branch of `writeElem`: the delimiter check is
made on the field NAME (not the rendered value), then unexported fields
and fields tagged `-` are skipped, then separator, `getString`, write. -/
def writeFieldsGo (cfg : Config) : List (Field × Value) → Nat → GoStr → WOut
  | [], _, acc => .ok acc
  | (f, v) :: rest, i, acc =>
    if containsChar cfg.comma f.name then .err .noCommasInBody
    else if ¬ f.exported then writeFieldsGo cfg rest i acc
    else if tagGet f = gs "-" then writeFieldsGo cfg rest i acc
    else
      let acc' := if i > 0 then acc ++ [cfg.comma] else acc
      match getString f.stringerFn v with
      | .err e => .err e
      | .ok s => writeFieldsGo cfg rest (i + 1) (acc' ++ s)

/-- Embedding of `writeElem`: the `BodyMarshaler` capability bypasses
reflection; otherwise the visible fields are iterated in order. -/
def writeElem (cfg : Config) (T : RecType) (r : Rec) : WOut :=
  match T.bodyM with
  | some f => writeValsGo cfg (f r) 0 []
  | none => writeFieldsGo cfg (T.fields.zip r) 0 []

/-- Loop of the `HeaderMarshaler` branch of `writeHeader`. -/
def writeNamesGo (cfg : Config) : List GoStr → Nat → GoStr → WOut
  | [], _, acc => .ok acc
  | n :: rest, i, acc =>
    let acc' := if i > 0 then acc ++ [cfg.comma] else acc
    if containsChar cfg.comma n then .err .noCommasInHeader
    else writeNamesGo cfg rest (i + 1) (acc' ++ n)

/-- Loop of the reflection branch of `writeHeader`: anonymous and
unexported fields are skipped; a tag of `-` excludes the field, any
other tag replaces the name after a delimiter check; untagged names
are written unchecked. -/
def writeHdrFieldsGo (cfg : Config) : List Field → Nat → GoStr → WOut
  | [], _, acc => .ok acc
  | f :: rest, i, acc =>
    if f.anonymous ∨ ¬ f.exported then writeHdrFieldsGo cfg rest i acc
    else
      match f.tag with
      | some t =>
        if t = gs "-" then writeHdrFieldsGo cfg rest i acc
        else if containsChar cfg.comma t then .err .noCommasInHeader
        else
          writeHdrFieldsGo cfg rest (i + 1)
            ((if i > 0 then acc ++ [cfg.comma] else acc) ++ t)
      | none =>
        writeHdrFieldsGo cfg rest (i + 1)
          ((if i > 0 then acc ++ [cfg.comma] else acc) ++ f.name)

/-- Embedding of `writeHeader` of the generic writer: the empty-slice
check comes FIRST, before the `HeaderMarshaler` capability is even
consulted. -/
def writeHeader (cfg : Config) (T : RecType) (arr : List Rec) : WOut :=
  match arr with
  | [] => .err .emptySlice
  | first :: _ =>
    match T.headerM with
    | some f => writeNamesGo cfg (f first) 0 []
    | none => writeHdrFieldsGo cfg T.fields 0 []

/-- The configured line terminator. -/
def eolStr (cfg : Config) : GoStr := if cfg.useCRLF then gs "\r\n" else gs "\n"

/-- Row-emission loop of `WriteCSV`. -/
def writeRowsGo (cfg : Config) (T : RecType) : List Rec → GoStr → WOut
  | [], acc => .ok acc
  | r :: rest, acc =>
    match writeElem cfg T r with
    | .err e => .err e
    | .ok line => writeRowsGo cfg T rest (acc ++ line ++ eolStr cfg)

/-- Embedding of `WriteCSV`: optional header plus terminator, then one
line per element, then flush.  The buffered sink is observable only
through the final flush, so an aborted call yields no output. -/
def writeCSV (cfg : Config) (T : RecType) (arr : List Rec) : WOut :=
  if cfg.withHeader then
    match writeHeader cfg T arr with
    | .err e => .err e
    | .ok h => writeRowsGo cfg T arr (h ++ eolStr cfg)
  else writeRowsGo cfg T arr []

/-! ## Reader embedding (`reader.go`) -/

/-- Reader error values returned by `ReadCSV`.  `eofErr` is the `io`
error propagated when the header read (or a mid-line read failure)
surfaces end-of-input as an error; `missingDecoder` is
`ErrCannotUnmarshalUnknownTypeWithoutHeader`; `customErr` is any error
returned by a duck-typed unmarshal capability; `parseErr` is a
`strconv` failure or a `Parser.Parse` failure. -/
inductive RErr
  | eofErr | missingDecoder | customErr | parseErr
  deriving DecidableEq

/-- Outcome of decoding one cell into one field. -/
inductive SetOut
  | ok (v : Value)
  | err (e : RErr)
  | setPanic
  | unmodeled
  deriving DecidableEq

/-- Outcome of building one record from one row. -/
inductive LineOut
  | ok (r : Rec)
  | err (e : RErr)
  | oobPanic
  | setPanic
  | unmodeled
  deriving DecidableEq

/-- Outcome of a whole `ReadCSV` call. -/
inductive ReadOut
  | ok (rs : List Rec)
  | err (e : RErr)
  | oobPanic
  | setPanic
  | unmodeled
  deriving DecidableEq

/-- Embedding of `bufio.Reader.ReadString('\n')` against the remaining
input: the data read (terminator included when found), whether the
terminator was found (`false` means the read ended in `io.EOF`), and
the remaining input. -/
def readStringNL : GoStr → GoStr × Bool × GoStr
  | [] => ([], false, [])
  | c :: cs =>
    if c = '\n' then ([c], true, cs)
    else
      let r := readStringNL cs
      (c :: r.1, r.2.1, r.2.2)

/-- Line post-processing shared by the header and the rows: trim the
configured terminator, tolerate one trailing delimiter, split. -/
def splitCells (cfg : Config) (line : GoStr) : List GoStr :=
  let l1 := if cfg.useCRLF then goTrimSuffix (gs "\r\n") line
            else goTrimSuffix (gs "\n") line
  splitOnChar cfg.comma (goTrimSuffix [cfg.comma] l1)

/-- Tag-matching pass of `getField`: first field whose `csv` tag value
(the empty string when absent) equals the column name. -/
def findTagIdx (attr : GoStr) : List Field → Nat → Option Nat
  | [], _ => none
  | f :: rest, i =>
    if tagGet f = attr then some i else findTagIdx attr rest (i + 1)

/-- Name-matching pass of `getField`: first field whose declared name
matches exactly or case-insensitively, restricted to fields with no
`csv` tag at all. -/
def findNameIdx (attr : GoStr) : List Field → Nat → Option Nat
  | [], _ => none
  | f :: rest, i =>
    if (f.name = attr ∨ goEqualFold f.name attr) ∧ f.tag = none then some i
    else findNameIdx attr rest (i + 1)

/-- Embedding of `getField`: the tag pass, then the name pass;
`none` plays `errFieldNotFound`. -/
def getField (fields : List Field) (attr : GoStr) : Option Nat :=
  match findTagIdx attr fields 0 with
  | some i => some i
  | none => findNameIdx attr fields 0

/-- Surrounding-quote stripping of the string case of `setField`
(`TrimPrefix(TrimSuffix(value, "\""), "\"")`). -/
def trimQuotes (v : GoStr) : GoStr := goTrimPre ['"'] (goTrimSuffix ['"'] v)

/-- Embedding of `setField`: the `Parser` capability runs first but does
NOT return, so the kind switch still runs afterwards on the updated
field.  For a pointer field the switch dispatches on
`Field(i).Elem().Kind()`, which is `Invalid` while the pointer is nil,
so no case applies and the cell is silently dropped; when the pointer
is non-nil every value-storing branch `Set`s a bare scalar into the
pointer-typed field, which panics.  Unsupported kinds (struct, and
`Invalid`) fall through the switch as a no-op.  Decoding text into a
float or complex destination is left unmodelled (IEEE semantics). -/
def setField (f : Field) (cur : Value) (value : GoStr) : SetOut :=
  let afterParse : SetOut :=
    match f.parseFn with
    | none => .ok cur
    | some p =>
      match p value with
      | none => .err .parseErr
      | some newItem =>
        if f.isPtr then
          match cur with
          | .ptr none => .setPanic
          | .ptr (some _) =>
            if newItem.kind = f.kind then .ok (.ptr (some newItem)) else .setPanic
          | .scalar _ => .setPanic
        else
          if newItem.kind = f.kind then .ok (.scalar newItem) else .setPanic
  match afterParse with
  | .ok cur' =>
    let dispatch : Option Kind :=
      if f.isPtr then
        match cur' with
        | .ptr (some s) => some s.kind
        | .ptr none => none
        | .scalar s => some s.kind
      else some f.kind
    match dispatch with
    | some .kInt =>
      match goParseInt (goTrimSpace value) with
      | none => .err .parseErr
      | some n => if f.isPtr then .setPanic else .ok (.scalar (.sint n))
    | some .kUint =>
      match goParseUint (goTrimSpace value) with
      | none => .err .parseErr
      | some n => if f.isPtr then .setPanic else .ok (.scalar (.uint n))
    | some .kBool =>
      match goParseBool (goTrimSpace value) with
      | none => .err .parseErr
      | some b => if f.isPtr then .setPanic else .ok (.scalar (.bool b))
    | some .kFloat => .unmodeled
    | some .kComplex => .unmodeled
    | some .kString =>
      if f.isPtr then .setPanic else .ok (.scalar (.str (trimQuotes value)))
    | some .kStruct => .ok cur'
    | none => .ok cur'
  | other => other

/-- Field-binding loop of `ReadCSV`: for each header column (with its
position), resolve the field; an unmatched column is skipped; a matched
column reads `values[i]` — with no bounds check, hence the potential
index-out-of-range panic — and decodes it into the field. -/
def bindGo (fields : List Field) (values : List GoStr) :
    List GoStr → Nat → Rec → LineOut
  | [], _, item => .ok item
  | attr :: rest, i, item =>
    match getField fields attr with
    | none => bindGo fields values rest (i + 1) item
    | some fi =>
      match values.get? i with
      | none => .oobPanic
      | some cell =>
        match fields.get? fi, item.get? fi with
        | some f, some cur =>
          match setField f cur cell with
          | .ok v => bindGo fields values rest (i + 1) (item.set fi v)
          | .err e => .err e
          | .setPanic => .setPanic
          | .unmodeled => .unmodeled
        | _, _ => .oobPanic

/-- Building one record from one data row: the header-free unmarshal
capability is consulted only in header-disabled mode (its absence there
is the missing-decoder error), and — with no `else` — the header-aware
capability is additionally consulted afterwards; only when the latter
is absent does the field-binding loop run. -/
def processLine (cfg : Config) (T : RecType) (attrs values : List GoStr) :
    LineOut :=
  let item := zeroRec T
  let step1 : LineOut :=
    if cfg.withHeader then .ok item
    else
      match T.unmNoHeader with
      | some f =>
        match f item values with
        | some item' => .ok item'
        | none => .err .customErr
      | none => .err .missingDecoder
  match step1 with
  | .ok item' =>
    match T.unmWithHeader with
    | some f =>
      match f item' values attrs with
      | some item'' => .ok item''
      | none => .err .customErr
    | none => bindGo T.fields values attrs 0 item'
  | other => other

/-- Length bound used for the row loop's termination: when a terminator
was found, the data read is nonempty, so the rest is shorter. -/
theorem readStringNL_rest_lt (s : GoStr) (h : (readStringNL s).2.1 = true) :
    (readStringNL s).2.2.length < s.length := by
  induction s with
  | nil => simp [readStringNL] at h
  | cons c cs ih =>
    by_cases hc : c = '\n'
    · simp [readStringNL, hc]
    · simp only [readStringNL, if_neg hc] at h ⊢
      exact Nat.lt_succ_of_lt (ih h)

/-- Row loop of `ReadCSV`: read a line; end-of-input (no terminator
found) breaks out of the loop, silently discarding any partial final
line; otherwise the line is processed and the record appended. -/
def rowLoop (cfg : Config) (T : RecType) (attrs : List GoStr)
    (input : GoStr) (acc : List Rec) : ReadOut :=
  let r := readStringNL input
  if h : r.2.1 = true then
    match processLine cfg T attrs (splitCells cfg r.1) with
    | .ok item => rowLoop cfg T attrs r.2.2 (item :: acc)
    | .err e => .err e
    | .oobPanic => .oobPanic
    | .setPanic => .setPanic
    | .unmodeled => .unmodeled
  else .ok acc.reverse
  termination_by input.length
  decreasing_by exact readStringNL_rest_lt input h

/-- Embedding of `ReadCSV`: in header mode the first line is read (an
end-of-input there is returned as the read error), trimmed and split
into the column names; then the row loop runs. -/
def readCSV (cfg : Config) (T : RecType) (input : GoStr) : ReadOut :=
  if cfg.withHeader then
    let r := readStringNL input
    if r.2.1 then rowLoop cfg T (splitCells cfg r.1) r.2.2 []
    else .err .eofErr
  else rowLoop cfg T [] input []

/-! ## Rendered text of scalars and typed-record predicates -/

/-- The text the stringer-free arm of `getString` produces for a scalar
of a kind it supports (and `[]` for the kinds it rejects; those arms
are never used by the theorems below). -/
def renderScalar : Scalar → GoStr
  | .str t => t
  | .sint i => renderInt i
  | .uint n => renderUint n
  | .flt lit => lit
  | .bool b => if b then gs "true" else gs "false"
  | .cplx => []
  | .structv _ => []

/-- The rendered cell of a plain (non-pointer) field value. -/
def renderValue : Value → GoStr
  | .scalar s => renderScalar s
  | .ptr _ => []

/-- Scalars whose default rendering decodes back to themselves: text
with no delimiter, no terminator and no surrounding quote character;
integers within the 64-bit ranges the engine parses; booleans. -/
def scalarOK : Scalar → Prop
  | .str t => ',' ∉ t ∧ '\n' ∉ t ∧ t.head? ≠ some '"' ∧ t.getLast? ≠ some '"'
  | .sint i => -(2 ^ 63) ≤ i ∧ i < 2 ^ 63
  | .uint n => n < 2 ^ 64
  | .bool _ => True
  | .flt _ => False
  | .cplx => False
  | .structv _ => False

instance : DecidablePred scalarOK := by
  intro s
  unfold scalarOK
  cases s <;> infer_instance

/-- A field with no tag, no capabilities and a plain scalar type. -/
def plainField (f : Field) : Prop :=
  f.tag = none ∧ f.exported = true ∧ f.anonymous = false ∧ f.isPtr = false ∧
    f.parseFn = none ∧ f.stringerFn = none ∧
    (f.kind = .kString ∨ f.kind = .kInt ∨ f.kind = .kUint ∨ f.kind = .kBool)

/-- A usable header name: nonempty, delimiter-free, terminator-free. -/
def okName (n : GoStr) : Prop := n ≠ [] ∧ ',' ∉ n ∧ '\n' ∉ n

instance : DecidablePred okName := fun n => by
  unfold okName
  infer_instance

/-- The maximal `'\n'`-terminated lines of an input, as the row loop
consumes them (a trailing fragment with no terminator is not a line). -/
def linesOf (s : GoStr) : List GoStr :=
  let r := readStringNL s
  if h : r.2.1 = true then r.1 :: linesOf r.2.2 else []
  termination_by s.length
  decreasing_by exact readStringNL_rest_lt s h

/-! ## Concrete fixtures used by counterexamples and witnesses -/

/-- One exported untagged string field `A`. -/
def T1 : RecType := mkRecType [mkField (gs "A") .kString]

/-- Fields `A : string` and `B : int`. -/
def T2 : RecType := mkRecType [mkField (gs "A") .kString, mkField (gs "B") .kInt]

/-- Two exported untagged string fields `A`, `B`. -/
def T2s : RecType := mkRecType [mkField (gs "A") .kString, mkField (gs "B") .kString]

/-- One field `A : *int` (pointer to int), no capabilities. -/
def TPtr : RecType := mkRecType [⟨gs "A", none, true, false, .kInt, true, none, none⟩]

/-- One exported complex-kind field with no custom rendering. -/
def TCx : RecType := mkRecType [mkField (gs "A") .kComplex]

/-- A record type carrying a `HeaderMarshaler` capability. -/
def THM : RecType := ⟨[mkField (gs "A") .kString], none, none, some (fun _ => [gs "X"]), none⟩

/-- A string-kind field whose type implements `Parser`, always
returning the string `P`. -/
def TP : RecType :=
  mkRecType [⟨gs "A", none, true, false, .kString, false,
    some (fun _ => some (.str (gs "P"))), none⟩]

/-- A struct-kind field whose type implements `Parser`, wrapping the
raw cell text. -/
def TSt : RecType :=
  mkRecType [⟨gs "A", none, true, false, .kStruct, false,
    some (fun s => some (.structv s)), none⟩]

/-- A field with a `csv` tag plus an untagged companion. -/
def TT : RecType :=
  mkRecType [⟨gs "Name", some (gs "csvname"), true, false, .kString, false, none, none⟩,
    mkField (gs "Other") .kString]

/-! ## Round-trip statement ingredients -/

/-- Typed-record relation: each field value is a scalar of the field's
kind that round-trips through its rendering. -/
def typedOK (fs : List Field) (r : Rec) : Prop :=
  List.Forall₂ (fun f v => ∃ s, v = Value.scalar s ∧ s.kind = f.kind ∧ scalarOK s) fs r

/-- The text the writer produces for the data rows of a collection
under the default configuration. -/
def encodedRows (rs : List Rec) : GoStr :=
  (rs.map (fun r => joinChar ',' (r.map renderValue) ++ gs "\n")).join

/-- The full document the writer produces (header line plus rows)
under the default configuration. -/
def encodedDoc (T : RecType) (rs : List Rec) : GoStr :=
  joinChar ',' (T.fields.map Field.name) ++ '\n' :: encodedRows rs

/-- A record shape on which the default reflection paths of both the
reader and the writer run: at least one field, every field plain with a
usable name, names pairwise distinct up to case folding, and no
record-level capability. -/
def plainShape (T : RecType) : Prop :=
  T.fields ≠ [] ∧ (∀ f ∈ T.fields, plainField f ∧ okName f.name) ∧
    (T.fields.map Field.name).Pairwise (fun a b => goEqualFold a b = false) ∧
    T.unmNoHeader = none ∧ T.unmWithHeader = none ∧
    T.headerM = none ∧ T.bodyM = none

/-- A record whose encoded row decodes back to it: well-typed
round-trippable scalars, and a final cell that is not the empty string
(an empty final cell is eaten by the reader's trailing-delimiter trim,
which then under-populates the row). -/
def okRecord (T : RecType) (r : Rec) : Prop :=
  typedOK T.fields r ∧ r.getLast? ≠ some (Value.scalar (Scalar.str []))

/-! ## Helper lemmas: trimming -/

/-- `TrimSuffix` removes a suffix that is literally there. -/
theorem goTrimSuffix_append (suf a : GoStr) :
    goTrimSuffix suf (a ++ suf) = a := by
  unfold goTrimSuffix
  have hlen : (a ++ suf).length - suf.length = a.length := by
    simp [List.length_append]
  rw [if_pos]
  · rw [hlen, List.take_left]
  · exact ⟨by simp, by rw [hlen, List.drop_left]⟩

/-- `TrimSuffix` with a one-character suffix leaves a string whose last
character differs alone. -/
theorem goTrimSuffix_single_of_getLast (c : Char) (s : GoStr)
    (h : s.getLast? ≠ some c) : goTrimSuffix [c] s = s := by
  rcases List.eq_nil_or_concat' s with rfl | ⟨a, d, rfl⟩
  · simp [goTrimSuffix]
  · have hd : d ≠ c := by
      intro hdc
      exact h (by simp [hdc])
    unfold goTrimSuffix
    rw [if_neg]
    rintro ⟨-, hdrop⟩
    have hlen : (a ++ [d]).length - [c].length = a.length := by simp
    rw [hlen, List.drop_left] at hdrop
    exact hd (by simpa using hdrop)

/-- `TrimPrefix` with a one-character prefix leaves a string whose head
differs alone. -/
theorem goTrimPre_single_of_head (c : Char) (s : GoStr)
    (h : s.head? ≠ some c) : goTrimPre [c] s = s := by
  cases s with
  | nil => simp [goTrimPre]
  | cons d rest =>
    have hd : d ≠ c := by simpa using h
    unfold goTrimPre
    rw [if_neg]
    simpa using hd

/-- Quote stripping is the identity on strings with no surrounding
quote character. -/
theorem trimQuotes_eq_self (s : GoStr) (h1 : s.head? ≠ some '"')
    (h2 : s.getLast? ≠ some '"') : trimQuotes s = s := by
  unfold trimQuotes
  rw [goTrimSuffix_single_of_getLast _ _ h2, goTrimPre_single_of_head _ _ h1]

/-- `dropWhile` does nothing when no element satisfies the predicate. -/
theorem dropWhile_eq_self_of_none {p : Char → Bool} (s : GoStr)
    (h : ∀ c ∈ s, p c = false) : s.dropWhile p = s := by
  cases s with
  | nil => rfl
  | cons c rest => simp [List.dropWhile, h c (by simp)]

/-- `TrimSpace` is the identity on space-free strings. -/
theorem goTrimSpace_eq_self (s : GoStr) (h : ∀ c ∈ s, isGoSpace c = false) :
    goTrimSpace s = s := by
  unfold goTrimSpace
  rw [dropWhile_eq_self_of_none s h,
    dropWhile_eq_self_of_none s.reverse (by simpa using fun c hc => h c hc),
    List.reverse_reverse]

/-! ## Helper lemmas: digits and numeric round trips -/

/-- Value of the digit character of a digit. -/
theorem digitChar_toNat {d : Nat} (h : d < 10) :
    (digitChar d).toNat = 48 + d := by
  interval_cases d <;> decide

/-- Digit characters are digit characters. -/
theorem isDigitChar_digitChar {d : Nat} (h : d < 10) :
    isDigitChar (digitChar d) = true := by
  simp [isDigitChar, digitChar_toNat h]
  omega

/-- Round trip of a single digit. -/
theorem digitVal_digitChar {d : Nat} (h : d < 10) :
    digitVal (digitChar d) = d := by
  simp [digitVal, digitChar_toNat h]

/-- Characters whose code differs are different characters. -/
theorem char_ne_of_toNat {a b : Char} (h : a.toNat ≠ b.toNat) : a ≠ b :=
  fun hab => h (congrArg Char.toNat hab)

/-- A digit character is not a delimiter, terminator, sign, quote or
space character. -/
theorem isDigitChar_props {c : Char} (h : isDigitChar c = true) :
    c ≠ ',' ∧ c ≠ '\n' ∧ c ≠ '+' ∧ c ≠ '-' ∧ c ≠ '"' ∧ isGoSpace c = false := by
  simp only [isDigitChar, Bool.decide_and, Bool.and_eq_true, decide_eq_true_eq] at h
  refine ⟨char_ne_of_toNat ?_, char_ne_of_toNat ?_, char_ne_of_toNat ?_,
    char_ne_of_toNat ?_, char_ne_of_toNat ?_, ?_⟩
  · show c.toNat ≠ 44; omega
  · show c.toNat ≠ 10; omega
  · show c.toNat ≠ 43; omega
  · show c.toNat ≠ 45; omega
  · show c.toNat ≠ 34; omega
  · rw [isGoSpace, decide_eq_false_iff_not]
    rintro (rfl | rfl | rfl | rfl | rfl | rfl) <;> revert h <;> decide

/-- Every character of `natDigits n` is a digit. -/
theorem natDigits_all_digit (n : Nat) :
    ∀ c ∈ natDigits n, isDigitChar c = true := by
  induction n using Nat.strong_induction_on with
  | _ n ih =>
    rw [natDigits]
    split
    · intro c hc
      simp only [List.mem_singleton] at hc
      subst hc
      exact isDigitChar_digitChar (by omega)
    · intro c hc
      rcases List.mem_append.1 hc with h1 | h1
      · exact ih (n / 10) (Nat.div_lt_self (by omega) (by omega)) c h1
      · simp only [List.mem_singleton] at h1
        subst h1
        exact isDigitChar_digitChar (Nat.mod_lt _ (by omega))

/-- Digit strings are nonempty. -/
theorem natDigits_ne_nil (n : Nat) : natDigits n ≠ [] := by
  rw [natDigits]
  split
  · simp
  · simp

/-- Accumulated value of a digit string with one more digit. -/
theorem digitsVal_append_digit (a : GoStr) (c : Char) (acc : Nat) :
    digitsVal (a ++ [c]) acc = digitsVal a acc * 10 + digitVal c := by
  simp [digitsVal, List.foldl_append]

/-- Value recovered from a rendered natural number, with accumulator. -/
theorem digitsVal_natDigits (n : Nat) :
    ∀ acc : Nat, digitsVal (natDigits n) acc =
      acc * 10 ^ (natDigits n).length + n := by
  induction n using Nat.strong_induction_on with
  | _ n ih =>
    intro acc
    rw [natDigits]
    split
    · next h =>
      simp [digitsVal, digitVal_digitChar h]
    · next h =>
      rw [digitsVal_append_digit, ih (n / 10) (Nat.div_lt_self (by omega) (by omega)),
        digitVal_digitChar (Nat.mod_lt _ (by omega))]
      have hlen : (natDigits (n / 10) ++ [digitChar (n % 10)]).length =
          (natDigits (n / 10)).length + 1 := by simp
      rw [hlen, pow_succ]
      have := Nat.div_add_mod n 10
      ring_nf
      omega

/-- `parseDigits` inverts `natDigits`. -/
theorem parseDigits_natDigits (n : Nat) : parseDigits (natDigits n) = some n := by
  unfold parseDigits
  rw [if_neg (natDigits_ne_nil n), if_pos]
  · rw [digitsVal_natDigits n 0]
    simp
  · rw [List.all_eq_true]
    exact natDigits_all_digit n

/-- `strconv.ParseUint` inverts `fmt.Sprint` on 64-bit naturals. -/
theorem goParseUint_renderUint {n : Nat} (h : n < 2 ^ 64) :
    goParseUint (renderUint n) = some n := by
  unfold goParseUint renderUint
  rw [parseDigits_natDigits]
  exact if_pos h

/-- The head of a digit string is a digit. -/
theorem natDigits_head_digit (n : Nat) :
    ∃ c cs, natDigits n = c :: cs ∧ isDigitChar c = true := by
  rcases hn : natDigits n with - | ⟨c, cs⟩
  · exact absurd hn (natDigits_ne_nil n)
  · exact ⟨c, cs, rfl, natDigits_all_digit n c (by rw [hn]; simp)⟩

/-- Evaluation of the `ParseInt` core on a successfully parsed digit
string. -/
theorem goParseIntCore_eq (d : GoStr) (m : Nat) (neg : Bool) (n : Nat)
    (h : parseDigits d = some n) :
    goParseIntCore d m neg =
      if n ≤ m then some (if neg then -(n : Int) else (n : Int)) else none := by
  unfold goParseIntCore
  rw [h]

/-- `strconv.ParseInt` inverts `fmt.Sprint` on int64 values. -/
theorem goParseInt_renderInt {i : Int} (h1 : -(2 ^ 63) ≤ i) (h2 : i < 2 ^ 63) :
    goParseInt (renderInt i) = some i := by
  by_cases hneg : i < 0
  · unfold renderInt
    rw [if_pos hneg]
    show goParseInt ('-' :: natDigits i.natAbs) = some i
    show (if '-' = '+' then goParseIntCore (natDigits i.natAbs) (2 ^ 63 - 1) false
      else if '-' = '-' then goParseIntCore (natDigits i.natAbs) (2 ^ 63) true
      else goParseIntCore ('-' :: natDigits i.natAbs) (2 ^ 63 - 1) false) = some i
    rw [if_neg (by decide), if_pos rfl,
      goParseIntCore_eq _ _ _ _ (parseDigits_natDigits _)]
    have hle : i.natAbs ≤ 2 ^ 63 := by omega
    rw [if_pos hle, if_pos rfl]
    congr 1
    omega
  · unfold renderInt
    rw [if_neg hneg]
    obtain ⟨c, cs, hcons, hdig⟩ := natDigits_head_digit i.toNat
    rw [hcons]
    obtain ⟨-, -, hplus, hminus, -, -⟩ := isDigitChar_props hdig
    show (if c = '+' then goParseIntCore cs (2 ^ 63 - 1) false
      else if c = '-' then goParseIntCore cs (2 ^ 63) true
      else goParseIntCore (c :: cs) (2 ^ 63 - 1) false) = some i
    rw [if_neg hplus, if_neg hminus, ← hcons,
      goParseIntCore_eq _ _ _ _ (parseDigits_natDigits _)]
    have hle : i.toNat ≤ 2 ^ 63 - 1 := by omega
    rw [if_pos hle, if_neg (by decide : ¬(false = true))]
    congr 1
    omega

/-- `strconv.ParseBool` accepts the rendering of either boolean. -/
theorem goParseBool_render (b : Bool) :
    goParseBool (if b then gs "true" else gs "false") = some b := by
  cases b <;> decide

/-! ## Helper lemmas: splitting and joining -/

/-- Splitting a separator-free string yields that one part. -/
theorem splitOnChar_of_not_mem (sep : Char) (s : GoStr) (h : sep ∉ s) :
    splitOnChar sep s = [s] := by
  induction s with
  | nil => rfl
  | cons c cs ih =>
    have hc : c ≠ sep := fun hc => h (by simp [hc])
    have hcs : sep ∉ cs := fun hm => h (by simp [hm])
    unfold splitOnChar
    rw [if_neg hc, ih hcs]

/-- Splitting past a separator-free first part peels it off. -/
theorem splitOnChar_append_sep (sep : Char) (p t : GoStr) (h : sep ∉ p) :
    splitOnChar sep (p ++ sep :: t) = p :: splitOnChar sep t := by
  induction p with
  | nil => simp [splitOnChar]
  | cons c cs ih =>
    have hc : c ≠ sep := fun hc => h (by simp [hc])
    have hcs : sep ∉ cs := fun hm => h (by simp [hm])
    show splitOnChar sep (c :: (cs ++ sep :: t)) = (c :: cs) :: splitOnChar sep t
    rw [splitOnChar, if_neg hc, ih hcs]

/-- `joinChar` of a cons is the first part plus separator-preceded
remaining parts. -/
theorem joinChar_cons (sep : Char) (p : GoStr) (ps : List GoStr) (h : ps ≠ []) :
    joinChar sep (p :: ps) = p ++ sep :: joinChar sep ps := by
  cases ps with
  | nil => exact absurd rfl h
  | cons q qs => rfl

/-- Splitting inverts joining when no part contains the separator. -/
theorem splitOnChar_joinChar (sep : Char) (parts : List GoStr)
    (hne : parts ≠ []) (h : ∀ p ∈ parts, sep ∉ p) :
    splitOnChar sep (joinChar sep parts) = parts := by
  induction parts with
  | nil => exact absurd rfl hne
  | cons p ps ih =>
    cases ps with
    | nil =>
      show splitOnChar sep (joinChar sep [p]) = [p]
      exact splitOnChar_of_not_mem sep p (h p (by simp))
    | cons q qs =>
      rw [joinChar_cons sep p (q :: qs) (by simp),
        splitOnChar_append_sep sep p _ (h p (by simp)),
        ih (by simp) (fun r hr => h r (by simp [hr]))]

/-- A character of a join is a separator or a character of a part. -/
theorem mem_joinChar (sep : Char) (parts : List GoStr) (c : Char)
    (h : c ∈ joinChar sep parts) : c = sep ∨ ∃ p ∈ parts, c ∈ p := by
  induction parts with
  | nil => simp [joinChar] at h
  | cons p ps ih =>
    cases ps with
    | nil =>
      right
      exact ⟨p, by simp, h⟩
    | cons q qs =>
      rw [joinChar_cons sep p (q :: qs) (by simp)] at h
      rcases List.mem_append.1 h with h1 | h1
      · exact Or.inr ⟨p, by simp, h1⟩
      · rcases List.mem_cons.1 h1 with rfl | h2
        · exact Or.inl rfl
        · rcases ih h2 with h3 | ⟨r, hr, hcr⟩
          · exact Or.inl h3
          · exact Or.inr ⟨r, by simp [List.mem_cons.1 hr], hcr⟩

/-- A join ends with its last part. -/
theorem joinChar_ends_with_last (sep : Char) (ps : List GoStr) (p : GoStr) :
    ∃ a, joinChar sep (ps ++ [p]) = a ++ p := by
  induction ps with
  | nil => exact ⟨[], rfl⟩
  | cons x xs ih =>
    obtain ⟨a, ha⟩ := ih
    refine ⟨x ++ sep :: a, ?_⟩
    rw [List.cons_append, joinChar_cons sep x (xs ++ [p]) (by simp), ha]
    simp

/-- The last character of a join whose last part is nonempty and
separator-free is not the separator (so the reader's trailing-delimiter
trim does not fire on it). -/
theorem joinChar_getLast_ne (sep : Char) (ps : List GoStr) (a : GoStr) (d : Char)
    (hd : d ≠ sep) : (joinChar sep (ps ++ [a ++ [d]])).getLast? ≠ some sep := by
  obtain ⟨b, hb⟩ := joinChar_ends_with_last sep ps (a ++ [d])
  rw [hb, ← List.append_assoc]
  simp [hd]

/-! ## Helper lemmas: line reading -/

/-- A terminator-free input is read whole, with end-of-input signalled. -/
theorem readStringNL_no_nl (s : GoStr) (h : '\n' ∉ s) :
    readStringNL s = (s, false, []) := by
  induction s with
  | nil => rfl
  | cons c cs ih =>
    have hc : c ≠ '\n' := fun hc => h (by simp [hc])
    have hcs : '\n' ∉ cs := fun hm => h (by simp [hm])
    unfold readStringNL
    rw [if_neg hc, ih hcs]

/-- One-step evaluation of `readStringNL` on a non-terminator head. -/
theorem readStringNL_cons_ne (c : Char) (cs : GoStr) (hc : c ≠ '\n') :
    readStringNL (c :: cs) =
      (c :: (readStringNL cs).1, (readStringNL cs).2.1, (readStringNL cs).2.2) := by
  rw [readStringNL, if_neg hc]

/-- Reading a terminator-free line followed by the terminator yields
exactly that line (terminator included) and the rest. -/
theorem readStringNL_line (l rest : GoStr) (h : '\n' ∉ l) :
    readStringNL (l ++ '\n' :: rest) = (l ++ ['\n'], true, rest) := by
  induction l with
  | nil => simp [readStringNL]
  | cons c cs ih =>
    have hc : c ≠ '\n' := fun hc => h (by simp [hc])
    have hcs : '\n' ∉ cs := fun hm => h (by simp [hm])
    show readStringNL (c :: (cs ++ '\n' :: rest)) = (c :: cs ++ ['\n'], true, rest)
    rw [readStringNL_cons_ne _ _ hc, ih hcs]
    rfl

/-- The terminator-found flag is exactly terminator membership. -/
theorem readStringNL_found_iff (s : GoStr) :
    (readStringNL s).2.1 = true ↔ '\n' ∈ s := by
  induction s with
  | nil => simp [readStringNL]
  | cons c cs ih =>
    by_cases hc : c = '\n'
    · subst hc
      simp [readStringNL]
    · rw [readStringNL_cons_ne _ _ hc, ih, List.mem_cons]
      exact ⟨Or.inr, fun h => h.resolve_left (fun he => hc he.symm)⟩

/-- Appending to the unread rest commutes with reading one line. -/
theorem readStringNL_append (s p : GoStr) (h : (readStringNL s).2.1 = true) :
    readStringNL (s ++ p) =
      ((readStringNL s).1, true, (readStringNL s).2.2 ++ p) := by
  induction s with
  | nil => simp [readStringNL] at h
  | cons c cs ih =>
    by_cases hc : c = '\n'
    · subst hc
      simp [readStringNL]
    · rw [readStringNL_cons_ne _ _ hc] at h
      have h' : (readStringNL cs).2.1 = true := h
      rw [List.cons_append, readStringNL_cons_ne _ _ hc, ih h',
        readStringNL_cons_ne _ _ hc]

/-! ## Helper lemmas: field resolution -/

/-- An index found by the tag pass lies within the searched range. -/
theorem findTagIdx_bound (attr : GoStr) (fs : List Field) (k i : Nat)
    (h : findTagIdx attr fs k = some i) : k ≤ i ∧ i < k + fs.length := by
  induction fs generalizing k with
  | nil => simp [findTagIdx] at h
  | cons f rest ih =>
    unfold findTagIdx at h
    split at h
    · cases h
      simp
    · obtain ⟨h1, h2⟩ := ih (k + 1) h
      constructor <;> [omega; (simp only [List.length_cons]; omega)]

/-- The field found by the tag pass has the column name as its tag
value. -/
theorem findTagIdx_spec (attr : GoStr) (fs : List Field) (k i : Nat)
    (h : findTagIdx attr fs k = some i) :
    ∀ f, fs.get? (i - k) = some f → tagGet f = attr := by
  induction fs generalizing k with
  | nil => simp [findTagIdx] at h
  | cons g rest ih =>
    unfold findTagIdx at h
    split at h
    · next heq =>
      cases h
      intro f hf
      simp at hf
      rw [← hf]
      exact heq
    · intro f hf
      obtain ⟨hk, -⟩ := findTagIdx_bound attr rest (k + 1) i h
      have hik : i - k = (i - (k + 1)) + 1 := by omega
      rw [hik] at hf
      simp only [List.get?_cons_succ] at hf
      exact ih (k + 1) h f hf

/-- The tag pass finds nothing when no tag value equals the column. -/
theorem findTagIdx_none (attr : GoStr) (fs : List Field) (k : Nat)
    (h : ∀ f ∈ fs, tagGet f ≠ attr) : findTagIdx attr fs k = none := by
  induction fs generalizing k with
  | nil => rfl
  | cons f rest ih =>
    unfold findTagIdx
    rw [if_neg (h f (by simp))]
    exact ih (k + 1) (fun g hg => h g (by simp [hg]))

/-- An index found by the name pass lies within the searched range. -/
theorem findNameIdx_bound (attr : GoStr) (fs : List Field) (k i : Nat)
    (h : findNameIdx attr fs k = some i) : k ≤ i ∧ i < k + fs.length := by
  induction fs generalizing k with
  | nil => simp [findNameIdx] at h
  | cons f rest ih =>
    unfold findNameIdx at h
    split at h
    · cases h
      simp
    · obtain ⟨h1, h2⟩ := ih (k + 1) h
      constructor <;> [omega; (simp only [List.length_cons]; omega)]

/-- The field found by the name pass carries no tag at all. -/
theorem findNameIdx_spec (attr : GoStr) (fs : List Field) (k i : Nat)
    (h : findNameIdx attr fs k = some i) :
    ∀ f, fs.get? (i - k) = some f → f.tag = none := by
  induction fs generalizing k with
  | nil => simp [findNameIdx] at h
  | cons g rest ih =>
    unfold findNameIdx at h
    split at h
    · next heq =>
      cases h
      intro f hf
      simp at hf
      rw [← hf]
      exact heq.2
    · intro f hf
      obtain ⟨hk, -⟩ := findNameIdx_bound attr rest (k + 1) i h
      have hik : i - k = (i - (k + 1)) + 1 := by omega
      rw [hik] at hf
      simp only [List.get?_cons_succ] at hf
      exact ih (k + 1) h f hf

/-- The name pass finds the first matching field, positionally. -/
theorem findNameIdx_first (attr : GoStr) (fs : List Field) (k i : Nat)
    (hi : i < fs.length)
    (hbefore : ∀ j < i, ∀ f, fs.get? j = some f →
      ¬ ((f.name = attr ∨ goEqualFold f.name attr = true) ∧ f.tag = none))
    (hat : ∀ f, fs.get? i = some f →
      (f.name = attr ∨ goEqualFold f.name attr = true) ∧ f.tag = none) :
    findNameIdx attr fs k = some (k + i) := by
  induction fs generalizing k i with
  | nil => simp at hi
  | cons g rest ih =>
    cases i with
    | zero =>
      unfold findNameIdx
      rw [if_pos (hat g rfl)]
      simp
    | succ j =>
      unfold findNameIdx
      rw [if_neg (hbefore 0 (by omega) g rfl)]
      have := ih (k + 1) j (by simpa using hi)
        (fun j' hj' f hf => hbefore (j' + 1) (by omega) f (by simpa using hf))
        (fun f hf => hat f (by simpa using hf))
      rw [this]
      congr 1
      omega

/-- `goEqualFold` is reflexive along equality. -/
theorem goEqualFold_of_eq {a b : GoStr} (h : a = b) : goEqualFold a b = true := by
  subst h
  simp [goEqualFold]

/-- Column resolution on an all-plain shape: the `i`-th declared name
resolves exactly to the `i`-th field, provided names are nonempty and
pairwise distinct up to case folding. -/
theorem getField_plain (fs : List Field) (i : Nat) (f : Field)
    (htags : ∀ g ∈ fs, g.tag = none)
    (hnames : ∀ g ∈ fs, g.name ≠ [])
    (hfold : (fs.map Field.name).Pairwise (fun a b => goEqualFold a b = false))
    (hget : fs.get? i = some f) :
    getField fs f.name = some i := by
  have hmem : f ∈ fs := List.get?_mem hget
  unfold getField
  rw [findTagIdx_none f.name fs 0 (fun g hg => by
    rw [tagGet, htags g hg]
    simpa using (hnames f hmem))]
  have hi : i < fs.length := List.get?_eq_some.1 hget |>.1
  have hfi : fs.get ⟨i, hi⟩ = f := by
    rw [List.get?_eq_get hi] at hget
    exact Option.some.inj hget
  have hfirst := findNameIdx_first f.name fs 0 i hi ?_ ?_
  · simpa using hfirst
  · intro j hj g hg
    rintro ⟨hmatch, -⟩
    have hje : j < fs.length := by omega
    have hgj : fs.get ⟨j, hje⟩ = g := by
      rw [List.get?_eq_get hje] at hg
      exact Option.some.inj hg
    have hp := List.pairwise_iff_getElem.1 hfold j i
      (by simpa using hje) (by simpa using hi) hj
    simp only [List.getElem_map] at hp
    have hfold' : goEqualFold g.name f.name = false := by
      rw [← hgj, ← hfi]
      exact hp
    rcases hmatch with heq | heq
    · rw [goEqualFold_of_eq heq] at hfold'
      cases hfold'
    · rw [heq] at hfold'
      cases hfold'
  · intro g hg
    have hfg : f = g := Option.some.inj (hget.symm.trans hg)
    rw [← hfg]
    exact ⟨Or.inl rfl, htags f hmem⟩

/-! ## Helper lemmas: rendered cells and per-field decode round trip -/

/-- Characters of a rendered int64: a sign or digits. -/
theorem renderInt_chars (i : Int) :
    ∀ c ∈ renderInt i, c = '-' ∨ isDigitChar c = true := by
  unfold renderInt
  split
  · intro c hc
    rcases List.mem_cons.1 hc with rfl | h
    · exact Or.inl rfl
    · exact Or.inr (natDigits_all_digit _ c h)
  · intro c hc
    exact Or.inr (natDigits_all_digit _ c hc)

/-- Characters of a rendered scalar of a round-trippable kind are never
the delimiter, the terminator, or (for non-string kinds) whitespace. -/
theorem renderScalar_no_delim {s : Scalar} (hok : scalarOK s) :
    ',' ∉ renderScalar s ∧ '\n' ∉ renderScalar s := by
  cases s with
  | str t => exact ⟨hok.1, hok.2.1⟩
  | sint i =>
    constructor <;> intro hmem <;>
      rcases renderInt_chars i _ hmem with h | h
    · cases h
    · exact absurd h (by intro hd; exact (isDigitChar_props hd).1 rfl)
    · cases h
    · exact absurd h (by intro hd; exact (isDigitChar_props hd).2.1 rfl)
  | uint n =>
    constructor <;> intro hmem
    · exact (isDigitChar_props (natDigits_all_digit n _ hmem)).1 rfl
    · exact (isDigitChar_props (natDigits_all_digit n _ hmem)).2.1 rfl
  | bool b => cases b <;> revert hok <;> decide
  | flt lit => cases hok
  | cplx => cases hok
  | structv p => cases hok

/-- Rendered integers contain no whitespace, so `TrimSpace` leaves them
alone. -/
theorem goTrimSpace_renderInt (i : Int) :
    goTrimSpace (renderInt i) = renderInt i := by
  refine goTrimSpace_eq_self _ (fun c hc => ?_)
  rcases renderInt_chars i c hc with rfl | h
  · decide
  · exact (isDigitChar_props h).2.2.2.2.2

/-- Rendered unsigned integers contain no whitespace. -/
theorem goTrimSpace_renderUint (n : Nat) :
    goTrimSpace (renderUint n) = renderUint n := by
  refine goTrimSpace_eq_self _ (fun c hc => ?_)
  exact (isDigitChar_props (natDigits_all_digit n c hc)).2.2.2.2.2

/-- Decoding the rendered cell of a plain field restores the original
scalar: the per-field round trip at the heart of the read/write
symmetry. -/
theorem setField_roundtrip (f : Field) (cur : Value) (s : Scalar)
    (hparse : f.parseFn = none) (hptr : f.isPtr = false)
    (hkind : s.kind = f.kind) (hok : scalarOK s) :
    setField f cur (renderScalar s) = .ok (.scalar s) := by
  unfold setField
  rw [hparse]
  simp only [hptr, if_false, Bool.false_eq_true]
  cases s with
  | str t =>
    rw [← hkind]
    simp only [Scalar.kind, renderScalar]
    rw [trimQuotes_eq_self t hok.2.2.1 hok.2.2.2]
  | sint i =>
    rw [← hkind]
    simp only [Scalar.kind, renderScalar]
    rw [goTrimSpace_renderInt, goParseInt_renderInt hok.1 hok.2]
  | uint n =>
    rw [← hkind]
    simp only [Scalar.kind, renderScalar]
    rw [goTrimSpace_renderUint, goParseUint_renderUint hok]
  | bool b =>
    rw [← hkind]
    simp only [Scalar.kind, renderScalar]
    have hsp : goTrimSpace (if b then gs "true" else gs "false") =
        (if b then gs "true" else gs "false") := by
      cases b <;> decide
    rw [hsp, goParseBool_render]
  | flt lit => cases hok
  | cplx => cases hok
  | structv p => cases hok

/-- The field-binding loop rebuilds exactly the record whose rendered
cells it is fed, for an all-plain shape. -/
theorem bindGo_roundtrip (fs : List Field) (r : Rec)
    (hplain : ∀ f ∈ fs, plainField f)
    (hnames : ∀ f ∈ fs, okName f.name)
    (hfold : (fs.map Field.name).Pairwise (fun a b => goEqualFold a b = false))
    (htyped : typedOK fs r) :
    ∀ k (item : Rec), item.length = fs.length →
      bindGo fs (r.map renderValue) ((fs.map Field.name).drop k) k item =
        .ok (item.take k ++ r.drop k) := by
  have hlenr : fs.length = r.length := htyped.length_eq
  suffices h : ∀ n k item, fs.length - k = n → item.length = fs.length →
      bindGo fs (r.map renderValue) ((fs.map Field.name).drop k) k item =
        .ok (item.take k ++ r.drop k) by
    intro k item hlen
    exact h (fs.length - k) k item rfl hlen
  intro n
  induction n with
  | zero =>
    intro k item hdiff hlen
    have hk : fs.length ≤ k := by omega
    rw [List.drop_eq_nil_of_le (by simpa using hk), bindGo,
      List.take_of_length_le (by omega), List.drop_eq_nil_of_le (by omega),
      List.append_nil]
  | succ m ih =>
    intro k item hdiff hlen
    have hk : k < fs.length := by omega
    have hkr : k < r.length := by omega
    have hkm : k < (fs.map Field.name).length := by simpa using hk
    have hkv : k < (r.map renderValue).length := by simpa using hkr
    rw [List.drop_eq_getElem_cons hkm, bindGo]
    have hgetf : fs.get? k = some (fs.get ⟨k, hk⟩) := List.get?_eq_get hk
    have hname : (fs.map Field.name)[k] = (fs.get ⟨k, hk⟩).name := by
      simp [List.getElem_map]
    obtain ⟨s, hs, hskind, hsok⟩ := htyped.get hk hkr
    have hplk := hplain (fs.get ⟨k, hk⟩) (List.get_mem fs k hk)
    have hvget : (r.map renderValue).get? k = some (renderValue (r.get ⟨k, hkr⟩)) := by
      rw [List.get?_eq_get hkv]
      congr 1
      simp [List.getElem_map]
    have higet : item.get? k = some (item.get ⟨k, by omega⟩) :=
      List.get?_eq_get (by omega)
    have hset : setField (fs.get ⟨k, hk⟩) (item.get ⟨k, by omega⟩)
        (renderValue (Value.scalar s)) = .ok (.scalar s) := by
      show setField _ _ (renderScalar s) = _
      exact setField_roundtrip _ _ _ hplk.2.2.2.2.1 hplk.2.2.2.1 hskind hsok
    simp only [hname, getField_plain fs k (fs.get ⟨k, hk⟩)
        (fun g hg => (hplain g hg).1) (fun g hg => (hnames g hg).1) hfold hgetf,
      hvget, hgetf, higet, hs, hset]
    rw [ih (k + 1) (item.set k (.scalar s)) (by omega) (by simpa using hlen)]
    congr 1
    have hsetlist : item.set k (Value.scalar s) =
        item.take k ++ Value.scalar s :: item.drop (k + 1) :=
      List.set_eq_take_cons_drop _ (by omega)
    have htk : (item.take k).length = k := by
      rw [List.length_take]
      omega
    have h1 : (item.set k (Value.scalar s)).take (k + 1) =
        item.take k ++ [Value.scalar s] := by
      rw [hsetlist, List.take_append_eq_append_take, htk, List.take_take]
      have hd : k + 1 - k = 1 := by omega
      have hmin : min (k + 1) k = k := by omega
      rw [hd, hmin]
      rfl
    have h2 : r.drop k = Value.scalar s :: r.drop (k + 1) := by
      rw [List.drop_eq_getElem_cons hkr, ← hs]
      congr 1
    rw [h1, h2]
    simp

/-! ## Helper lemmas: writer output characterization -/

/-- Membership form of `strings.ContainsRune`. -/
theorem containsChar_eq_false {c : Char} {s : GoStr} (h : c ∉ s) :
    containsChar c s = false := by
  simpa [containsChar] using h

/-- `getString` renders a supported plain scalar by the default rules. -/
theorem getString_plain (s : Scalar) (hok : scalarOK s) :
    getString none (.scalar s) = .ok (renderScalar s) := by
  cases s with
  | str t => rfl
  | sint i => rfl
  | uint n => rfl
  | bool b => rfl
  | flt lit => cases hok
  | cplx => cases hok
  | structv p => cases hok

/-- A join is the first part followed by separator-prefixed parts. -/
theorem joinChar_eq_join (c : Char) (x : GoStr) (xs : List GoStr) :
    joinChar c (x :: xs) = x ++ (xs.map (fun p => c :: p)).join := by
  induction xs generalizing x with
  | nil => simp [joinChar]
  | cons y ys ih =>
    rw [joinChar_cons c x (y :: ys) (by simp), ih y]
    simp

/-- One plain field is emitted by the reflection row loop: name checked,
not skipped, separator when past the first, rendered cell appended. -/
theorem writeFieldsGo_step (p : Field × Value) (rest : List (Field × Value))
    (i : Nat) (acc : GoStr)
    (hname : ',' ∉ p.1.name) (hexp : p.1.exported = true) (htag : p.1.tag = none)
    (hstr : getString p.1.stringerFn p.2 = .ok (renderValue p.2)) :
    writeFieldsGo defaultConfig (p :: rest) i acc =
      writeFieldsGo defaultConfig rest (i + 1)
        ((if i > 0 then acc ++ [','] else acc) ++ renderValue p.2) := by
  conv_lhs => rw [writeFieldsGo.eq_def]
  simp only [defaultConfig, containsChar_eq_false hname, hexp, htag, hstr, tagGet,
    Bool.false_eq_true, if_false, not_true, Option.getD_none, ite_false, ite_true]
  rw [if_neg (by decide : ¬([] : GoStr) = gs "-")]

/-- The reflection row loop past the first column appends
separator-prefixed rendered cells. -/
theorem writeFieldsGo_plain_aux (pairs : List (Field × Value)) (i : Nat)
    (acc : GoStr)
    (hcond : ∀ p ∈ pairs, plainField p.1 ∧ ',' ∉ p.1.name ∧
      ∃ s, p.2 = Value.scalar s ∧ scalarOK s)
    (hi : 1 ≤ i) :
    writeFieldsGo defaultConfig pairs i acc =
      .ok (acc ++ ((pairs.map (fun p => ',' :: renderValue p.2)).join)) := by
  induction pairs generalizing i acc with
  | nil =>
    rw [writeFieldsGo]
    simp
  | cons p rest ih =>
    obtain ⟨hplain, hname, s, hs, hsok⟩ := hcond p (by simp)
    have hstr : getString p.1.stringerFn p.2 = .ok (renderValue p.2) := by
      rw [hplain.2.2.2.2.2.1, hs]
      exact getString_plain s hsok
    rw [writeFieldsGo_step p rest i acc hname hplain.2.1 hplain.1 hstr,
      ih (i + 1) _ (fun q hq => hcond q (by simp [hq])) (by omega),
      if_pos (show i > 0 by omega)]
    simp

/-- The reflection branch of `writeElem` on an all-plain shape produces
the comma-join of the rendered cells. -/
theorem writeFieldsGo_plain (pairs : List (Field × Value))
    (hcond : ∀ p ∈ pairs, plainField p.1 ∧ ',' ∉ p.1.name ∧
      ∃ s, p.2 = Value.scalar s ∧ scalarOK s) :
    writeFieldsGo defaultConfig pairs 0 [] =
      .ok (joinChar ',' (pairs.map (fun p => renderValue p.2))) := by
  cases pairs with
  | nil =>
    rw [writeFieldsGo]
    rfl
  | cons p rest =>
    obtain ⟨hplain, hname, s, hs, hsok⟩ := hcond p (by simp)
    have hstr : getString p.1.stringerFn p.2 = .ok (renderValue p.2) := by
      rw [hplain.2.2.2.2.2.1, hs]
      exact getString_plain s hsok
    rw [writeFieldsGo_step p rest 0 [] hname hplain.2.1 hplain.1 hstr,
      writeFieldsGo_plain_aux rest 1 _ (fun q hq => hcond q (by simp [hq]))
        (by omega),
      List.map_cons, joinChar_eq_join]
    simp [Function.comp_def]

/-- One plain field contributes its declared name to the header. -/
theorem writeHdrFieldsGo_step (f : Field) (rest : List Field) (i : Nat)
    (acc : GoStr)
    (hanon : f.anonymous = false) (hexp : f.exported = true)
    (htag : f.tag = none) :
    writeHdrFieldsGo defaultConfig (f :: rest) i acc =
      writeHdrFieldsGo defaultConfig rest (i + 1)
        ((if i > 0 then acc ++ [','] else acc) ++ f.name) := by
  conv_lhs => rw [writeHdrFieldsGo.eq_def]
  simp only [defaultConfig, hanon, hexp, htag, Bool.false_eq_true, false_or,
    not_true, if_false, or_false, ite_false, ite_true]

/-- The header loop past the first column appends separator-prefixed
names. -/
theorem writeHdrFieldsGo_plain_aux (fs : List Field) (i : Nat) (acc : GoStr)
    (hcond : ∀ f ∈ fs, plainField f) (hi : 1 ≤ i) :
    writeHdrFieldsGo defaultConfig fs i acc =
      .ok (acc ++ ((fs.map (fun f => ',' :: f.name)).join)) := by
  induction fs generalizing i acc with
  | nil =>
    rw [writeHdrFieldsGo]
    simp
  | cons f rest ih =>
    obtain hplain := hcond f (by simp)
    rw [writeHdrFieldsGo_step f rest i acc hplain.2.2.1 hplain.2.1 hplain.1,
      ih (i + 1) _ (fun g hg => hcond g (by simp [hg])) (by omega),
      if_pos (show i > 0 by omega)]
    simp

/-- The reflection branch of `writeHeader` on an all-plain shape
produces the comma-join of the declared names. -/
theorem writeHdrFieldsGo_plain (fs : List Field)
    (hcond : ∀ f ∈ fs, plainField f) :
    writeHdrFieldsGo defaultConfig fs 0 [] =
      .ok (joinChar ',' (fs.map Field.name)) := by
  cases fs with
  | nil =>
    rw [writeHdrFieldsGo]
    rfl
  | cons f rest =>
    obtain hplain := hcond f (by simp)
    rw [writeHdrFieldsGo_step f rest 0 [] hplain.2.2.1 hplain.2.1 hplain.1,
      writeHdrFieldsGo_plain_aux rest 1 _ (fun g hg => hcond g (by simp [hg]))
        (by omega),
      List.map_cons, joinChar_eq_join]
    simp [Function.comp_def]

/-! ## Helper lemmas: whole-document round trip -/

/-- Right-hand projection of the typed-record relation. -/
theorem typedOK_mem_right {fs : List Field} {r : Rec} (h : typedOK fs r) :
    ∀ v ∈ r, ∃ s, v = Value.scalar s ∧ scalarOK s := by
  induction h with
  | nil => intro v hv; cases hv
  | cons ha hl ih =>
    intro v hv
    rcases List.mem_cons.1 hv with rfl | hv'
    · obtain ⟨s, hs, -, hsok⟩ := ha
      exact ⟨s, hs, hsok⟩
    · exact ih v hv'

/-- A rendered round-trippable scalar is empty only for the empty
string value. -/
theorem renderScalar_ne_nil {s : Scalar} (hok : scalarOK s)
    (hne : s ≠ .str []) : renderScalar s ≠ [] := by
  cases s with
  | str t =>
    intro hcon
    exact hne (by rw [show t = [] from hcon])
  | sint i =>
    show renderInt i ≠ []
    unfold renderInt
    split
    · simp
    · exact natDigits_ne_nil _
  | uint n => exact natDigits_ne_nil n
  | bool b => cases b <;> decide
  | flt lit => cases hok
  | cplx => cases hok
  | structv p => cases hok

/-- `splitCells` under the default configuration recovers the cells of
a written line: the terminator is trimmed, the trailing-delimiter trim
does not fire (the final cell is nonempty and delimiter-free), and the
split inverts the join. -/
theorem splitCells_line (cells ps : List GoStr) (lastc : GoStr)
    (hdecomp : cells = ps ++ [lastc]) (hlast : lastc ≠ [])
    (hnc : ∀ p ∈ cells, ',' ∉ p) :
    splitCells defaultConfig (joinChar ',' cells ++ ['\n']) = cells := by
  have hnl : gs "\n" = ['\n'] := rfl
  simp only [splitCells, defaultConfig, if_false, Bool.false_eq_true, hnl]
  rw [goTrimSuffix_append]
  rcases List.eq_nil_or_concat' lastc with rfl | ⟨q, d, rfl⟩
  · exact absurd rfl hlast
  · have hd : d ≠ ',' := by
      intro hcon
      exact hnc (q ++ [d]) (by simp [hdecomp]) (by simp [hcon])
    have hlastne := joinChar_getLast_ne ',' ps q d hd
    rw [← hdecomp] at hlastne
    rw [goTrimSuffix_single_of_getLast ',' _ hlastne]
    exact splitOnChar_joinChar ',' cells (by simp [hdecomp]) hnc

/-- `writeElem` on a plain shape emits the comma-join of the rendered
cells. -/
theorem writeElem_plain (T : RecType) (r : Rec) (hshape : plainShape T)
    (htyped : typedOK T.fields r) :
    writeElem defaultConfig T r = .ok (joinChar ',' (r.map renderValue)) := by
  unfold writeElem
  simp only [hshape.2.2.2.2.2.2]
  rw [writeFieldsGo_plain (T.fields.zip r) (fun p hp => by
    obtain ⟨hp1, hp2⟩ := List.of_mem_zip hp
    obtain ⟨s, hs, -, hsok⟩ := List.forall₂_zip htyped hp
    exact ⟨(hshape.2.1 p.1 hp1).1, (hshape.2.1 p.1 hp1).2.2.1, s, hs, hsok⟩)]
  have hlen : r.length ≤ T.fields.length := le_of_eq htyped.length_eq.symm
  have hmap : (T.fields.zip r).map (fun p => renderValue p.2) = r.map renderValue := by
    calc (T.fields.zip r).map (fun p => renderValue p.2)
        = (T.fields.zip r).map (renderValue ∘ Prod.snd) := rfl
      _ = ((T.fields.zip r).map Prod.snd).map renderValue := by
          rw [List.map_map]
      _ = r.map renderValue := by rw [List.map_snd_zip _ _ hlen]
  rw [hmap]

/-- Characters of an encoded row line are delimiters or rendered-cell
characters, never the terminator. -/
theorem encoded_line_no_nl (fs : List Field) (r : Rec) (htyped : typedOK fs r) :
    '\n' ∉ joinChar ',' (r.map renderValue) := by
  intro hmem
  rcases mem_joinChar ',' _ _ hmem with hcon | ⟨p, hp, hcp⟩
  · cases hcon
  · obtain ⟨v, hv, rfl⟩ := List.mem_map.1 hp
    obtain ⟨s, rfl, hsok⟩ := typedOK_mem_right htyped v hv
    exact (renderScalar_no_delim hsok).2 hcp

/-- Cells of an encoded row are delimiter-free. -/
theorem encoded_cells_no_comma (fs : List Field) (r : Rec)
    (htyped : typedOK fs r) : ∀ p ∈ r.map renderValue, ',' ∉ p := by
  intro p hp
  obtain ⟨v, hv, rfl⟩ := List.mem_map.1 hp
  obtain ⟨s, rfl, hsok⟩ := typedOK_mem_right htyped v hv
  exact (renderScalar_no_delim hsok).1

/-- The row loop consumes exactly the encoded rows and rebuilds the
collection, in order. -/
theorem rowLoop_encoded (T : RecType) (hshape : plainShape T) :
    ∀ (rs : List Rec), (∀ r ∈ rs, okRecord T r) →
      ∀ acc, rowLoop defaultConfig T (T.fields.map Field.name)
        (encodedRows rs) acc = .ok (acc.reverse ++ rs) := by
  intro rs
  induction rs with
  | nil =>
    intro _ acc
    rw [rowLoop]
    simp [encodedRows, readStringNL]
  | cons r rest ih =>
    intro hrecs acc
    have hr := hrecs r (by simp)
    have htyped := hr.1
    have hlenr : T.fields.length = r.length := htyped.length_eq
    have hrne : r ≠ [] := by
      intro hcon
      rw [hcon] at hlenr
      exact hshape.1 (List.length_eq_zero.1 hlenr)
    have hrows : encodedRows (r :: rest) =
        joinChar ',' (r.map renderValue) ++ '\n' :: encodedRows rest := by
      simp [encodedRows, gs]
    have hread : readStringNL (encodedRows (r :: rest)) =
        (joinChar ',' (r.map renderValue) ++ ['\n'], true, encodedRows rest) := by
      rw [hrows]
      exact readStringNL_line _ _ (encoded_line_no_nl T.fields r htyped)
    obtain ⟨r0, vlast, hrdecomp⟩ := List.eq_nil_or_concat' r |>.resolve_left hrne
    have hcells : r.map renderValue = (r0.map renderValue) ++ [renderValue vlast] := by
      rw [hrdecomp]
      simp
    have hvlast : ∃ s, vlast = Value.scalar s ∧ scalarOK s :=
      typedOK_mem_right htyped vlast (by rw [hrdecomp]; simp)
    obtain ⟨s, rfl, hsok⟩ := hvlast
    have hsne : s ≠ .str [] := by
      intro hcon
      subst hcon
      exact hr.2 (by rw [hrdecomp]; simp)
    have hsplit : splitCells defaultConfig
        (joinChar ',' (r.map renderValue) ++ ['\n']) = r.map renderValue :=
      splitCells_line _ _ _ hcells
        (renderScalar_ne_nil hsok hsne)
        (encoded_cells_no_comma T.fields r htyped)
    have hproc : processLine defaultConfig T (T.fields.map Field.name)
        (r.map renderValue) = .ok r := by
      unfold processLine
      rw [hshape.2.2.2.2.1]
      have hbind := bindGo_roundtrip T.fields r
        (fun f hf => (hshape.2.1 f hf).1) (fun f hf => (hshape.2.1 f hf).2)
        hshape.2.2.1 htyped 0 (zeroRec T) (by simp [zeroRec])
      rw [List.drop_zero] at hbind
      simpa using hbind
    rw [rowLoop]
    simp only [hread, hsplit, hproc]
    rw [dif_pos trivial]
    have := ih (fun q hq => hrecs q (by simp [hq])) (r :: acc)
    rw [this]
    simp

/-- The row-emission loop of `WriteCSV` appends every encoded row. -/
theorem writeRowsGo_plain (T : RecType) (hshape : plainShape T) :
    ∀ (rs : List Rec), (∀ r ∈ rs, okRecord T r) →
      ∀ acc, writeRowsGo defaultConfig T rs acc = .ok (acc ++ encodedRows rs) := by
  intro rs
  induction rs with
  | nil =>
    intro _ acc
    rw [writeRowsGo]
    simp [encodedRows]
  | cons r rest ih =>
    intro hrecs acc
    rw [writeRowsGo]
    simp only [writeElem_plain T r hshape (hrecs r (by simp)).1]
    rw [ih (fun q hq => hrecs q (by simp [hq]))]
    simp [encodedRows, eolStr, defaultConfig, gs]

/-- `WriteCSV` on a plain shape and a nonempty collection of
round-trippable records succeeds and produces the encoded document. -/
theorem writeCSV_plain (T : RecType) (hshape : plainShape T) (rs : List Rec)
    (hne : rs ≠ []) (hrecs : ∀ r ∈ rs, okRecord T r) :
    writeCSV defaultConfig T rs = .ok (encodedDoc T rs) := by
  cases rs with
  | nil => exact absurd rfl hne
  | cons r0 rest =>
    unfold writeCSV writeHeader
    simp only [show defaultConfig.withHeader = true from rfl,
      hshape.2.2.2.2.2.1,
      writeHdrFieldsGo_plain T.fields (fun f hf => (hshape.2.1 f hf).1),
      writeRowsGo_plain T hshape (r0 :: rest) hrecs, if_true]
    simp [encodedDoc, eolStr, defaultConfig, gs]

/-- `ReadCSV` on the encoded document of a plain shape restores the
collection. -/
theorem readCSV_encoded (T : RecType) (hshape : plainShape T) (rs : List Rec)
    (hrecs : ∀ r ∈ rs, okRecord T r) :
    readCSV defaultConfig T (encodedDoc T rs) = .ok rs := by
  have hnames := hshape.2.1
  have hhdr_no_nl : '\n' ∉ joinChar ',' (T.fields.map Field.name) := by
    intro hmem
    rcases mem_joinChar ',' _ _ hmem with hcon | ⟨p, hp, hcp⟩
    · cases hcon
    · obtain ⟨f, hf, rfl⟩ := List.mem_map.1 hp
      exact (hnames f hf).2.2.2 hcp
  have hread : readStringNL (encodedDoc T rs) =
      (joinChar ',' (T.fields.map Field.name) ++ ['\n'], true, encodedRows rs) := by
    unfold encodedDoc
    exact readStringNL_line _ _ hhdr_no_nl
  obtain ⟨fs0, flast, hfdecomp⟩ :=
    List.eq_nil_or_concat' T.fields |>.resolve_left hshape.1
  have hndecomp : T.fields.map Field.name = (fs0.map Field.name) ++ [flast.name] := by
    rw [hfdecomp]
    simp
  have hsplit : splitCells defaultConfig
      (joinChar ',' (T.fields.map Field.name) ++ ['\n']) =
      T.fields.map Field.name :=
    splitCells_line _ _ _ hndecomp
      ((hnames flast (by rw [hfdecomp]; simp)).2.1)
      (fun p hp => by
        obtain ⟨f, hf, rfl⟩ := List.mem_map.1 hp
        exact (hnames f hf).2.2.1)
  unfold readCSV
  simp only [show defaultConfig.withHeader = true from rfl, hread, hsplit, if_true]
  simpa using rowLoop_encoded T hshape rs hrecs []

/-! ## Helper lemmas: step evaluation of the reader loop -/

/-- One row-loop step when a terminated line is available. -/
theorem rowLoop_found (cfg : Config) (T : RecType) (attrs : List GoStr)
    (input : GoStr) (acc : List Rec) (line rest : GoStr)
    (hread : readStringNL input = (line, true, rest)) :
    rowLoop cfg T attrs input acc =
      match processLine cfg T attrs (splitCells cfg line) with
      | .ok item => rowLoop cfg T attrs rest (item :: acc)
      | .err e => .err e
      | .oobPanic => .oobPanic
      | .setPanic => .setPanic
      | .unmodeled => .unmodeled := by
  rw [rowLoop]
  simp only [hread]
  rw [dif_pos trivial]

/-- The row loop returns the accumulated records at end-of-input. -/
theorem rowLoop_eof (cfg : Config) (T : RecType) (attrs : List GoStr)
    (input : GoStr) (acc : List Rec)
    (hread : (readStringNL input).2.1 = false) :
    rowLoop cfg T attrs input acc = .ok acc.reverse := by
  rw [rowLoop]
  rw [dif_neg (by simp [hread])]

/-- `ReadCSV` in header mode first consumes the header line. -/
theorem readCSV_header_step (cfg : Config) (T : RecType) (input : GoStr)
    (line rest : GoStr) (hwh : cfg.withHeader = true)
    (hread : readStringNL input = (line, true, rest)) :
    readCSV cfg T input = rowLoop cfg T (splitCells cfg line) rest [] := by
  unfold readCSV
  simp only [hwh, if_true, hread]

/-- `ReadCSV` in header mode surfaces end-of-input on the header read
as the read error. -/
theorem readCSV_header_eof (cfg : Config) (T : RecType) (input : GoStr)
    (hwh : cfg.withHeader = true)
    (hread : (readStringNL input).2.1 = false) :
    readCSV cfg T input = .err .eofErr := by
  unfold readCSV
  simp only [hwh, if_true]
  rw [if_neg (by simp [hread])]

/-- `ReadCSV` with the header disabled runs the row loop directly with
empty column names. -/
theorem readCSV_noheader_step (cfg : Config) (T : RecType) (input : GoStr)
    (hwh : cfg.withHeader = false) :
    readCSV cfg T input = rowLoop cfg T [] input [] := by
  unfold readCSV
  rw [hwh]
  simp

/-- One `linesOf` step when a terminated line is available. -/
theorem linesOf_found (s line rest : GoStr)
    (hread : readStringNL s = (line, true, rest)) :
    linesOf s = line :: linesOf rest := by
  rw [linesOf]
  simp only [hread]
  rw [dif_pos trivial]

/-- `linesOf` at end-of-input. -/
theorem linesOf_eof (s : GoStr) (hread : (readStringNL s).2.1 = false) :
    linesOf s = [] := by
  rw [linesOf]
  rw [dif_neg (by simp [hread])]

/-! ## Helper lemmas: bounds safety of the binding loop -/

/-- A resolved field index is within the shape. -/
theorem getField_lt (fields : List Field) (attr : GoStr) (i : Nat)
    (h : getField fields attr = some i) : i < fields.length := by
  unfold getField at h
  rcases hfind : findTagIdx attr fields 0 with - | j
  · rw [hfind] at h
    have := findNameIdx_bound attr fields 0 i (by simpa using h)
    omega
  · rw [hfind] at h
    simp at h
    subst h
    have := findTagIdx_bound attr fields 0 j hfind
    omega

/-- The binding loop cannot index past the row when the row has at
least one cell per remaining column. -/
theorem bindGo_no_oob (fields : List Field) (values : List GoStr) :
    ∀ (attrs : List GoStr) (k : Nat) (item : Rec),
      k + attrs.length ≤ values.length → item.length = fields.length →
      bindGo fields values attrs k item ≠ .oobPanic := by
  intro attrs
  induction attrs with
  | nil =>
    intro k item hv hi
    rw [bindGo]
    intro hcon
    cases hcon
  | cons attr rest ih =>
    intro k item hv hi
    rw [bindGo]
    rcases hget : getField fields attr with - | fi
    · exact ih (k + 1) item (by simp at hv ⊢; omega) hi
    · have hfi : fi < fields.length := getField_lt fields attr fi hget
      have hkv : k < values.length := by simp at hv; omega
      simp only [hget, List.get?_eq_get hkv, List.get?_eq_get hfi,
        List.get?_eq_get (show fi < item.length by omega)]
      rcases setField (fields.get ⟨fi, hfi⟩) (item.get ⟨fi, by omega⟩)
          (values.get ⟨k, hkv⟩) with v | e | - | -
      · exact ih (k + 1) _ (by simp at hv ⊢; omega) (by simpa using hi)
      · intro hcon; cases hcon
      · intro hcon; cases hcon
      · intro hcon; cases hcon

/-- Building one record in header mode never indexes out of bounds
when the row has at least as many cells as there are columns. -/
theorem processLine_no_oob (cfg : Config) (T : RecType)
    (attrs values : List GoStr) (hcfg : cfg.withHeader = true)
    (hlen : attrs.length ≤ values.length) :
    processLine cfg T attrs values ≠ .oobPanic := by
  unfold processLine
  simp only [hcfg, if_true]
  rcases hwh : T.unmWithHeader with - | g
  · simp only [hwh]
    exact bindGo_no_oob T.fields values attrs 0 (zeroRec T) (by omega)
      (by simp [zeroRec])
  · simp only [hwh]
    rcases g (zeroRec T) values attrs with - | it <;> simp

/-- The row loop never indexes out of bounds in header mode when every
line of the remaining input splits into at least as many cells as there
are columns. -/
theorem rowLoop_no_oob (cfg : Config) (T : RecType) (attrs : List GoStr)
    (hcfg : cfg.withHeader = true) :
    ∀ (n : Nat) (input : GoStr), input.length ≤ n → ∀ acc,
      (∀ l ∈ linesOf input, attrs.length ≤ (splitCells cfg l).length) →
      rowLoop cfg T attrs input acc ≠ .oobPanic := by
  intro n
  induction n with
  | zero =>
    intro input hn acc hrows
    have : input = [] := List.length_eq_zero.1 (by omega)
    subst this
    rw [rowLoop_eof cfg T attrs [] acc rfl]
    intro hcon
    cases hcon
  | succ m ih =>
    intro input hn acc hrows
    rcases hfound : (readStringNL input).2.1 with - | -
    · rw [rowLoop_eof cfg T attrs input acc hfound]
      intro hcon
      cases hcon
    · obtain ⟨line, rest, hread⟩ : ∃ line rest,
          readStringNL input = (line, true, rest) := by
        rcases h : readStringNL input with ⟨l, f, r⟩
        rw [h] at hfound
        simp only at hfound
        exact ⟨l, r, by rw [hfound]⟩
      have hlines := linesOf_found input line rest hread
      have hline : attrs.length ≤ (splitCells cfg line).length :=
        hrows line (by rw [hlines]; simp)
      rw [rowLoop_found cfg T attrs input acc line rest hread]
      have hproc := processLine_no_oob cfg T attrs (splitCells cfg line) hcfg hline
      rcases hp : processLine cfg T attrs (splitCells cfg line) with it | e | - | - | -
      · have hrest : rest.length ≤ m := by
          have := readStringNL_rest_lt input (by rw [hread])
          rw [hread] at this
          simp only at this
          omega
        exact ih rest hrest (it :: acc)
          (fun l hl => hrows l (by rw [hlines]; simp [hl]))
      · intro hcon; cases hcon
      · exact absurd hp hproc
      · intro hcon; cases hcon
      · intro hcon; cases hcon

/-! ## Helper lemmas: a partial final line is invisible -/

/-- Appending a terminator-free tail to the input does not change the
row loop's result: the tail merges into (or forms) the partial final
line, which the loop discards either way. -/
theorem rowLoop_append (cfg : Config) (T : RecType) (attrs : List GoStr) :
    ∀ (n : Nat) (s : GoStr), s.length ≤ n → ∀ (p : GoStr) acc, '\n' ∉ p →
      rowLoop cfg T attrs (s ++ p) acc = rowLoop cfg T attrs s acc := by
  intro n
  induction n with
  | zero =>
    intro s hn p acc hp
    have : s = [] := List.length_eq_zero.1 (by omega)
    subst this
    rw [rowLoop_eof cfg T attrs [] acc rfl,
      rowLoop_eof cfg T attrs ([] ++ p) acc (by
        simp only [List.nil_append]
        rw [readStringNL_no_nl p hp])]
  | succ m ih =>
    intro s hn p acc hp
    rcases hfound : (readStringNL s).2.1 with - | -
    · have hs : '\n' ∉ s := fun hmem =>
        by rw [(readStringNL_found_iff s).2 hmem] at hfound; cases hfound
      have hsp : '\n' ∉ s ++ p := by
        intro hmem
        rcases List.mem_append.1 hmem with h | h
        · exact hs h
        · exact hp h
      rw [rowLoop_eof cfg T attrs s acc hfound,
        rowLoop_eof cfg T attrs (s ++ p) acc (by rw [readStringNL_no_nl _ hsp])]
    · obtain ⟨line, rest, hread⟩ : ∃ line rest,
          readStringNL s = (line, true, rest) := by
        rcases h : readStringNL s with ⟨l, f, r⟩
        rw [h] at hfound
        simp only at hfound
        exact ⟨l, r, by rw [hfound]⟩
      have hreadp : readStringNL (s ++ p) = (line, true, rest ++ p) := by
        rw [readStringNL_append s p (by rw [hread]), hread]
      rw [rowLoop_found cfg T attrs s acc line rest hread,
        rowLoop_found cfg T attrs (s ++ p) acc line (rest ++ p) hreadp]
      have hrest : rest.length ≤ m := by
        have := readStringNL_rest_lt s (by rw [hread])
        rw [hread] at this
        simp only at this
        omega
      rcases processLine cfg T attrs (splitCells cfg line) with it | e | - | - | -
      · exact ih rest hrest p (it :: acc) hp
      · rfl
      · rfl
      · rfl
      · rfl

/-- Appending a terminator-free tail to the input does not change the
result of `ReadCSV` at all. -/
theorem readCSV_append_partial (cfg : Config) (T : RecType) (s p : GoStr)
    (hp : '\n' ∉ p) : readCSV cfg T (s ++ p) = readCSV cfg T s := by
  rcases hwh : cfg.withHeader with - | -
  · rw [readCSV_noheader_step cfg T s hwh, readCSV_noheader_step cfg T (s ++ p) hwh]
    exact rowLoop_append cfg T [] s.length s (le_refl _) p [] hp
  · rcases hfound : (readStringNL s).2.1 with - | -
    · have hs : '\n' ∉ s := fun hmem => by
        rw [(readStringNL_found_iff s).2 hmem] at hfound
        cases hfound
      have hsp : '\n' ∉ s ++ p := by
        intro hmem
        rcases List.mem_append.1 hmem with h | h
        · exact hs h
        · exact hp h
      rw [readCSV_header_eof cfg T s hwh hfound,
        readCSV_header_eof cfg T (s ++ p) hwh (by rw [readStringNL_no_nl _ hsp])]
    · obtain ⟨line, rest, hread⟩ : ∃ line rest,
          readStringNL s = (line, true, rest) := by
        rcases h : readStringNL s with ⟨l, f, r⟩
        rw [h] at hfound
        simp only at hfound
        exact ⟨l, r, by rw [hfound]⟩
      have hreadp : readStringNL (s ++ p) = (line, true, rest ++ p) := by
        rw [readStringNL_append s p (by rw [hread]), hread]
      rw [readCSV_header_step cfg T s line rest hwh hread,
        readCSV_header_step cfg T (s ++ p) line (rest ++ p) hwh hreadp]
      exact rowLoop_append cfg T _ rest.length rest (le_refl _) p [] hp

/-! ## Claims -/

/-- Helper: a `mkField` of a round-trippable kind is plain. -/
theorem plainField_mkField (n : GoStr) (k : Kind)
    (hk : k = .kString ∨ k = .kInt ∨ k = .kUint ∨ k = .kBool) :
    plainField (mkField n k) :=
  ⟨rfl, rfl, rfl, rfl, rfl, rfl, hk⟩

/-- C1 (counterexample): the round-trip claim as stated is false.  A
record type with one plain string field and default configuration,
whose sole field renders to `"` (a string with no embedded delimiter),
encodes to a document that decodes to the empty string instead: the
reader strips one layer of surrounding quote characters that the
writer never added. -/
theorem claim1_counterexample :
    writeCSV defaultConfig T1 [[Value.scalar (.str (gs "\""))]] =
      .ok (gs "A\n\"\n") ∧
    readCSV defaultConfig T1 (gs "A\n\"\n") = .ok [[Value.scalar (.str [])]] ∧
    [[Value.scalar (Scalar.str ([] : GoStr))]] ≠
      [[Value.scalar (Scalar.str (gs "\""))]] := by
  refine ⟨by decide, ?_, by decide⟩
  rw [readCSV_header_step defaultConfig T1 (gs "A\n\"\n") (gs "A\n") (gs "\"\n")
      rfl (by decide),
    rowLoop_found defaultConfig T1 _ (gs "\"\n") [] (gs "\"\n") [] (by decide)]
  have hp : processLine defaultConfig T1 (splitCells defaultConfig (gs "A\n"))
      (splitCells defaultConfig (gs "\"\n")) = .ok [Value.scalar (.str [])] := by
    decide
  simp only [hp]
  rw [rowLoop_eof defaultConfig T1 _ [] _ (by decide)]
  rfl

/-- C1 (amended): round trip holds for a plain shape (exported,
untagged, non-pointer, capability-free fields of text/int/uint/bool
kind, with nonempty, delimiter- and terminator-free, case-insensitively
distinct names) and a nonempty collection of well-typed records whose
string values carry no delimiter, no terminator and no surrounding
quote character, whose integers fit the 64-bit ranges, and whose final
field does not render to the empty cell: `WriteCSV` then produces the
encoded document and `ReadCSV` restores the collection exactly. -/
theorem claim1_roundtrip (T : RecType) (rs : List Rec) (hshape : plainShape T)
    (hne : rs ≠ []) (hrecs : ∀ r ∈ rs, okRecord T r) :
    writeCSV defaultConfig T rs = .ok (encodedDoc T rs) ∧
      readCSV defaultConfig T (encodedDoc T rs) = .ok rs :=
  ⟨writeCSV_plain T hshape rs hne hrecs, readCSV_encoded T hshape rs hrecs⟩

/-- C1 (witness): the amended round trip at a concrete two-field shape
and a concrete two-record collection. -/
theorem claim1_witness :
    plainShape T2 ∧
    writeCSV defaultConfig T2
        [[Value.scalar (.str (gs "Ada")), Value.scalar (.sint 36)],
          [Value.scalar (.str (gs "Bob")), Value.scalar (.sint 7)]] =
      .ok (encodedDoc T2
        [[Value.scalar (.str (gs "Ada")), Value.scalar (.sint 36)],
          [Value.scalar (.str (gs "Bob")), Value.scalar (.sint 7)]]) ∧
    readCSV defaultConfig T2 (encodedDoc T2
        [[Value.scalar (.str (gs "Ada")), Value.scalar (.sint 36)],
          [Value.scalar (.str (gs "Bob")), Value.scalar (.sint 7)]]) =
      .ok [[Value.scalar (.str (gs "Ada")), Value.scalar (.sint 36)],
        [Value.scalar (.str (gs "Bob")), Value.scalar (.sint 7)]] := by
  have hshape : plainShape T2 := by
    refine ⟨by simp [T2, mkRecType], ?_, ?_, rfl, rfl, rfl, rfl⟩
    · intro f hf
      simp only [T2, mkRecType, List.mem_cons, List.not_mem_nil, or_false] at hf
      rcases hf with rfl | rfl
      · exact ⟨plainField_mkField _ _ (Or.inl rfl), by decide⟩
      · exact ⟨plainField_mkField _ _ (Or.inr (Or.inl rfl)), by decide⟩
    · simp only [T2, mkRecType, mkField, List.map_cons, List.map_nil,
        List.pairwise_cons]
      refine ⟨fun b hb => ?_, fun b hb => ?_, by simp⟩
      · simp only [List.mem_cons, List.not_mem_nil, or_false] at hb
        subst hb
        decide
      · simp at hb
  have h1 : okRecord T2 [Value.scalar (.str (gs "Ada")), Value.scalar (.sint 36)] := by
    refine ⟨?_, by decide⟩
    refine List.Forall₂.cons ⟨.str (gs "Ada"), rfl, rfl, by decide⟩ ?_
    exact List.Forall₂.cons ⟨.sint 36, rfl, rfl, by decide⟩ List.Forall₂.nil
  have h2 : okRecord T2 [Value.scalar (.str (gs "Bob")), Value.scalar (.sint 7)] := by
    refine ⟨?_, by decide⟩
    refine List.Forall₂.cons ⟨.str (gs "Bob"), rfl, rfl, by decide⟩ ?_
    exact List.Forall₂.cons ⟨.sint 7, rfl, rfl, by decide⟩ List.Forall₂.nil
  have hrecs : ∀ r ∈ [[Value.scalar (.str (gs "Ada")), Value.scalar (.sint 36)],
      [Value.scalar (.str (gs "Bob")), Value.scalar (.sint 7)]], okRecord T2 r := by
    intro r hr
    rcases List.mem_cons.1 hr with rfl | hr'
    · exact h1
    · rcases List.mem_cons.1 hr' with rfl | hr''
      · exact h2
      · cases hr''
  obtain ⟨hw, hr⟩ := claim1_roundtrip T2 _ hshape (by simp) hrecs
  exact ⟨hshape, hw, hr⟩

/-- C2 (code bug): with comma as the delimiter, a rendered field value
containing a comma is written verbatim by the reflection path — the
source checks the field NAME for the delimiter, not the rendered value
— so the call succeeds and emits a malformed row instead of failing
with the Formatting error `ErrNoCommasAllowedInBody`. -/
theorem claim2_comma_value_written :
    writeCSV defaultConfig T1 [[Value.scalar (.str (gs "a,b"))]] =
      .ok (gs "A\na,b\n") ∧ T1.bodyM = none := by
  exact ⟨by decide, rfl⟩

/-- C3 (counterexample): a record type that does supply the
header-override capability still fails with the Empty-Collection error
on an empty collection — the emptiness check precedes the capability
check. -/
theorem claim3_counterexample :
    THM.headerM.isSome = true ∧
      writeCSV defaultConfig THM [] = .err .emptySlice := by
  exact ⟨rfl, by decide⟩

/-- C3 (amended): in header mode, `WriteCSV` on an empty collection
always fails with the Empty-Collection error, whether or not the
element type supplies a header-override capability. -/
theorem claim3_empty_always_fails (cfg : Config) (T : RecType)
    (hwh : cfg.withHeader = true) : writeCSV cfg T [] = .err .emptySlice := by
  unfold writeCSV writeHeader
  simp only [hwh, if_true]

/-- C3 (witness): the amended statement at the concrete capability-
supplying type. -/
theorem claim3_witness : writeCSV defaultConfig THM [] = .err .emptySlice :=
  claim3_empty_always_fails defaultConfig THM rfl

/-- C4 (counterexample): a header-disabled read against a type with no
header-free decode capability does NOT fail on empty input — the
missing-decoder check sits inside the row loop, so reading the empty
input succeeds with an empty collection. -/
theorem claim4_counterexample :
    readCSV noHeaderConfig T1 [] = .ok [] ∧ T1.unmNoHeader = none := by
  constructor
  · rw [readCSV_noheader_step noHeaderConfig T1 [] rfl,
      rowLoop_eof noHeaderConfig T1 [] [] [] rfl]
    rfl
  · rfl

/-- C4 (amended): with the header disabled and no header-free decode
capability, `ReadCSV` fails with the Missing-Decoder error exactly when
the input contains a complete line — the first line is consumed before
the error — and succeeds with the empty collection otherwise
(in particular on empty input). -/
theorem claim4_missingDecoder (cfg : Config) (T : RecType) (s : GoStr)
    (hwh : cfg.withHeader = false) (hcap : T.unmNoHeader = none) :
    readCSV cfg T s =
      if '\n' ∈ s then .err .missingDecoder else .ok [] := by
  rw [readCSV_noheader_step cfg T s hwh]
  by_cases hmem : '\n' ∈ s
  · rw [if_pos hmem]
    have hfound : (readStringNL s).2.1 = true := (readStringNL_found_iff s).2 hmem
    obtain ⟨line, rest, hread⟩ : ∃ line rest,
        readStringNL s = (line, true, rest) := by
      rcases h : readStringNL s with ⟨l, f, r⟩
      rw [h] at hfound
      simp only at hfound
      exact ⟨l, r, by rw [hfound]⟩
    rw [rowLoop_found cfg T [] s [] line rest hread]
    have hp : processLine cfg T [] (splitCells cfg line) = .err .missingDecoder := by
      unfold processLine
      simp only [hwh, hcap, Bool.false_eq_true, if_false]
    simp only [hp]
  · rw [if_neg hmem,
      rowLoop_eof cfg T [] s [] (by
        rcases hfound : (readStringNL s).2.1 with - | -
        · rfl
        · exact absurd ((readStringNL_found_iff s).1 hfound) hmem)]
    rfl

/-- C4 (witness): the amended statement at a concrete one-line input:
the line is consumed and the call fails with Missing-Decoder. -/
theorem claim4_witness :
    readCSV noHeaderConfig T1 (gs "x\n") = .err .missingDecoder := by
  have h := claim4_missingDecoder noHeaderConfig T1 (gs "x\n") rfl rfl
  rwa [if_pos (by decide)] at h

/-- C5 (code bug): decoding the cell `5` into a pointer-to-int field
leaves the field nil: `setField` never allocates, dispatches on the
`Invalid` kind of the nil pointer's dereference, and silently drops
the cell, so a successful `ReadCSV` returns the record with the
pointer field still nil instead of pointing at the parsed value. -/
theorem claim5_pointer_left_nil :
    readCSV defaultConfig TPtr (gs "A\n5\n") = .ok [[Value.ptr none]] := by
  rw [readCSV_header_step defaultConfig TPtr (gs "A\n5\n") (gs "A\n") (gs "5\n")
      rfl (by decide),
    rowLoop_found defaultConfig TPtr _ (gs "5\n") [] (gs "5\n") [] (by decide)]
  have hp : processLine defaultConfig TPtr (splitCells defaultConfig (gs "A\n"))
      (splitCells defaultConfig (gs "5\n")) = .ok [Value.ptr none] := by decide
  simp only [hp]
  rw [rowLoop_eof defaultConfig TPtr _ [] _ (by decide)]
  rfl

/-- C6 (counterexample): encoding a record with a complex-kind field
(and no custom rendering) fails with the Unsupported-Type error — the
writer's kind switch has no complex case — rather than rendering the
value like a float. -/
theorem claim6_counterexample :
    writeCSV defaultConfig TCx [[Value.scalar .cplx]] = .err .unsupportedType := by
  decide

/-- C6 (amended): `getString` on any complex-kind value without a
custom text rendering — directly or behind a non-nil pointer — returns
the Unsupported-Type error, so field iteration rejects such a field. -/
theorem claim6_complex_unsupported (v : Value)
    (hv : v = .scalar .cplx ∨ v = .ptr (some .cplx)) :
    getString none v = .err .unsupportedType := by
  rcases hv with rfl | rfl <;> rfl

/-- C6 (witness): the amended statement at the bare complex value. -/
theorem claim6_witness : getString none (.scalar .cplx) = .err .unsupportedType :=
  claim6_complex_unsupported _ (Or.inl rfl)

/-- C7 (counterexample): a string-kind field whose type implements the
custom parsing capability does NOT keep the parser's result: the
`Parser` branch stores it but falls through, and the built-in string
rule overwrites it with the (quote-trimmed) raw cell, so the decoded
field holds `x`, not the parser's `P`. -/
theorem claim7_counterexample :
    readCSV defaultConfig TP (gs "A\nx\n") =
      .ok [[Value.scalar (.str (gs "x"))]] ∧ gs "x" ≠ gs "P" := by
  constructor
  · rw [readCSV_header_step defaultConfig TP (gs "A\nx\n") (gs "A\n") (gs "x\n")
        rfl (by decide),
      rowLoop_found defaultConfig TP _ (gs "x\n") [] (gs "x\n") [] (by decide)]
    have hp : processLine defaultConfig TP (splitCells defaultConfig (gs "A\n"))
        (splitCells defaultConfig (gs "x\n")) =
        .ok [Value.scalar (.str (gs "x"))] := by decide
    simp only [hp]
    rw [rowLoop_eof defaultConfig TP _ [] _ (by decide)]
    rfl
  · decide

/-- C7 (amended): the custom parser runs first and its result is
stored, but the built-in kind switch still runs afterwards; the
parser's result is the final value exactly when the field's kind has no
built-in case (e.g. a struct kind), where the switch is a no-op. -/
theorem claim7_parser_struct_kept (f : Field) (cur : Value) (v : GoStr)
    (p : GoStr → Option Scalar) (pl : GoStr)
    (hp : f.parseFn = some p) (hptr : f.isPtr = false)
    (hkind : f.kind = .kStruct) (hres : p v = some (Scalar.structv pl)) :
    setField f cur v = .ok (.scalar (.structv pl)) := by
  unfold setField
  simp only [hp, hres, hptr, Bool.false_eq_true, if_false, hkind]
  rw [if_pos (show (Scalar.structv pl).kind = Kind.kStruct from rfl)]

/-- C7 (witness): the amended statement at the concrete struct-kind
parser field of `TSt`. -/
theorem claim7_witness :
    setField ⟨gs "A", none, true, false, .kStruct, false,
        some (fun s => some (.structv s)), none⟩
      (Value.scalar (.structv [])) (gs "hello") =
      .ok (.scalar (.structv (gs "hello"))) :=
  claim7_parser_struct_kept _ _ _ _ _ rfl rfl rfl rfl

/-- C8 (confirmed): during read binding, any column that resolves to a
field carrying a `csv` override tag did so through the exact tag-value
match — a tagged field is never matched via its declared name, even
when the header contains that name. -/
theorem claim8_tag_precedence (fields : List Field) (attr : GoStr) (i : Nat)
    (f : Field) (t : GoStr) (hget : getField fields attr = some i)
    (hf : fields.get? i = some f) (htag : f.tag = some t) : t = attr := by
  unfold getField at hget
  rcases hfind : findTagIdx attr fields 0 with - | j
  · rw [hfind] at hget
    simp only at hget
    have hnone := findNameIdx_spec attr fields 0 i (by simpa using hget) f
      (by simpa using hf)
    rw [htag] at hnone
    cases hnone
  · rw [hfind] at hget
    simp only [Option.some.injEq] at hget
    rw [← hget] at hf
    have := findTagIdx_spec attr fields 0 j hfind f (by simpa using hf)
    rw [tagGet, htag] at this
    simpa using this

/-- C8 (witness): at the concrete tagged shape `TT`, the column
`csvname` binds to the tagged field (and, separately checkable, the
column equal to its declared name `Name` binds to no field). -/
theorem claim8_witness :
    getField TT.fields (gs "Name") = none ∧ gs "csvname" = gs "csvname" := by
  refine ⟨by decide, ?_⟩
  exact claim8_tag_precedence TT.fields (gs "csvname") 0
    ⟨gs "Name", some (gs "csvname"), true, false, .kString, false, none, none⟩
    (gs "csvname") (by decide) rfl rfl

/-- C9 (confirmed): the cell lookup of the binding loop indexes the row
by header position with no bounds check: there is a concrete input
(header `A,B`, data row `x`) on which `ReadCSV` performs an
out-of-bounds access, and the access stays in bounds whenever every
data line of the input splits into at least as many cells as the
header has columns. -/
theorem claim9_oob_access :
    (readCSV defaultConfig T2s (gs "A,B\nx\n") = .oobPanic) ∧
    (∀ (cfg : Config) (T : RecType) (input line rest : GoStr),
      cfg.withHeader = true → readStringNL input = (line, true, rest) →
      (∀ l ∈ linesOf rest,
        (splitCells cfg line).length ≤ (splitCells cfg l).length) →
      readCSV cfg T input ≠ .oobPanic) := by
  constructor
  · rw [readCSV_header_step defaultConfig T2s (gs "A,B\nx\n") (gs "A,B\n")
        (gs "x\n") rfl (by decide),
      rowLoop_found defaultConfig T2s _ (gs "x\n") [] (gs "x\n") [] (by decide)]
    have hp : processLine defaultConfig T2s (splitCells defaultConfig (gs "A,B\n"))
        (splitCells defaultConfig (gs "x\n")) = .oobPanic := by decide
    simp only [hp]
  · intro cfg T input line rest hwh hread hrows
    rw [readCSV_header_step cfg T input line rest hwh hread]
    exact rowLoop_no_oob cfg T (splitCells cfg line) hwh rest.length rest
      (le_refl _) [] hrows

/-- C9 (witness): the in-bounds half at a concrete well-formed input. -/
theorem claim9_witness :
    readCSV defaultConfig T2s (gs "A,B\nx,y\n") ≠ .oobPanic := by
  have hlines : linesOf (gs "x,y\n") = [gs "x,y\n"] := by
    rw [linesOf_found (gs "x,y\n") (gs "x,y\n") [] (by decide), linesOf_eof [] rfl]
  exact claim9_oob_access.2 defaultConfig T2s (gs "A,B\nx,y\n") (gs "A,B\n")
    (gs "x,y\n") rfl (by decide)
    (by
      rw [hlines]
      intro l hl
      simp only [List.mem_singleton] at hl
      subst hl
      decide)

/-- C10 (confirmed): an unterminated final line is silently discarded:
appending any terminator-free tail to an input leaves the result of
`ReadCSV` unchanged, and the row loop treats end-of-input reached on
such a tail as normal termination, returning what was accumulated. -/
theorem claim10_partial_line_discarded :
    (∀ (cfg : Config) (T : RecType) (s p : GoStr), '\n' ∉ p →
      readCSV cfg T (s ++ p) = readCSV cfg T s) ∧
    (∀ (cfg : Config) (T : RecType) (attrs : List GoStr) (p : GoStr)
      (acc : List Rec), '\n' ∉ p →
      rowLoop cfg T attrs p acc = .ok acc.reverse) := by
  constructor
  · exact fun cfg T s p hp => readCSV_append_partial cfg T s p hp
  · intro cfg T attrs p acc hp
    exact rowLoop_eof cfg T attrs p acc (by rw [readStringNL_no_nl p hp])

/-- C10 (witness): a concrete partially-terminated input decodes
exactly as its terminated prefix does. -/
theorem claim10_witness :
    readCSV defaultConfig T1 (gs "A\nx\n" ++ gs "partial") =
      readCSV defaultConfig T1 (gs "A\nx\n") :=
  claim10_partial_line_discarded.1 defaultConfig T1 (gs "A\nx\n") (gs "partial")
    (by decide)

end CsvGo
